import Mathlib

/-!
# CIDR aggregation: interval normalisation and CIDR decomposition

A shallow embedding of `src/main.cpp` (parser, `union_normalize`,
`interval_to_cidrs_v4`, `interval_to_cidrs_v6`, and the part of `main` that
chains them), followed by theorems about the embedded functions.

Conventions of the embedding
* `uint32_t`, `uint64_t` and `u128` values are natural numbers; every operation
  that can leave the width is followed by an explicit `% 2 ^ w`.
* `int` values (prefix lengths) are integers.
* `std::string` is a list of characters.
* Loops are recursive functions with a fuel argument; running out of fuel is a
  distinguished failure, so that "the loop ends" is a statement to prove.
* Library calls (`inet_pton`, `std::stoi`, `boost::multiprecision::msb/lsb`) are
  either parameters or small models of their documented behaviour.
-/

namespace Chnroutes

/-! ## Data model -/

/-- Source `struct Interval128 { u128 l; u128 r; }`, both ends inclusive. -/
structure Interval128 where
  l : Nat
  r : Nat
deriving DecidableEq, Repr

/-- Source `static const u128 U128_MAX = ~u128(0)`. -/
def U128_MAX : Nat := 2 ^ 128 - 1

/-- A CIDR block as the decomposers emit it: `(base, prefix length)`,
the prefix length being a C `int`. -/
abbrev Cidr := Nat × Int

/-- Ways in which the 128-bit decomposer can fail to return a list:
`boost::multiprecision::msb` and `lsb` throw an exception on a zero operand;
`out_of_fuel` marks a loop that did not end within its fuel. -/
inductive Fault where
  | bit_scan_of_zero
  | out_of_fuel
deriving DecidableEq, Repr

/-! ## Interval normaliser (`union_normalize`, lines 172-198) -/

/-- The comparator lambda given to `std::sort` (lines 174-177):
`if (a.l != b.l) return a.l < b.l; return a.r < b.r;`. -/
def iv_less (a b : Interval128) : Bool :=
  if a.l ≠ b.l then decide (a.l < b.l) else decide (a.r < b.r)

/-- The order `std::sort` arranges by: `a` may stand before `b` when the
comparator does not put `b` strictly before `a`. -/
def iv_le (a b : Interval128) : Prop := iv_less b a = false

instance iv_le_decidable : DecidableRel iv_le := fun a b => by
  unfold iv_le; infer_instance

/-- The sweep of lines 180-196 with `cur` as accumulator and the remaining
sorted input as list; the result is what is pushed to `out` from here on,
including the final `out.push_back(cur)`. `cur.r + 1` is 128-bit addition. -/
def sweep (cur : Interval128) : List Interval128 → List Interval128
  | [] => [cur]
  | nx :: rest =>
    let adjacent := (cur.r != U128_MAX) && (nx.l == (cur.r + 1) % 2 ^ 128)
    let overlap := decide (nx.l ≤ cur.r)
    if overlap || adjacent then
      sweep (if nx.r > cur.r then { cur with r := nx.r } else cur) rest
    else
      cur :: sweep nx rest

/-- Source `union_normalize`. `std::sort` with the comparator `iv_less` (a strict
total order on pairs, so the sorted arrangement is unique) is insertion sort. -/
def union_normalize (xs : List Interval128) : List Interval128 :=
  if xs.isEmpty then []
  else
    match List.insertionSort iv_le xs with
    | [] => []
    | x0 :: rest => sweep x0 rest

/-! ## 32-bit decomposer (`interval_to_cidrs_v4`, lines 235-263) -/

/-- Line 251: `while ((max_len << 1) <= remaining) max_len <<= 1;` on `uint64_t`. -/
def max_len_loop : Nat → Nat → Nat → Option Nat
  | 0, _, _ => none
  | fuel + 1, max_len, remaining =>
    if (max_len <<< 1) % 2 ^ 64 ≤ remaining then
      max_len_loop fuel ((max_len <<< 1) % 2 ^ 64) remaining
    else some max_len

/-- Line 256: `while ((1ULL << log2) < block) log2++;`. -/
def log2_loop : Nat → Nat → Nat → Option Nat
  | 0, _, _ => none
  | fuel + 1, log2, block =>
    if (1 <<< log2) % 2 ^ 64 < block then log2_loop fuel (log2 + 1) block else some log2

/-- Line 247: `L & (~L + 1)` on `uint64_t`. -/
def lowbit64 (L : Nat) : Nat := L &&& (((2 ^ 64 - 1 - L) + 1) % 2 ^ 64)

/-- The `while (L <= R)` loop of lines 239-261 on `uint64_t` values; the result
is the list of blocks pushed from this state on. -/
def interval_to_cidrs_v4_loop : Nat → Nat → Nat → Option (List Cidr)
  | 0, L, R => if L ≤ R then none else some []
  | fuel + 1, L, R =>
    if L ≤ R then
      let remaining := (R + 2 ^ 64 - L + 1) % 2 ^ 64
      let max_align := if L = 0 then (1 <<< 32) % 2 ^ 64 else lowbit64 L
      match max_len_loop 64 1 remaining with
      | none => none
      | some max_len =>
        let block := min max_align max_len
        match log2_loop 64 0 block with
        | none => none
        | some log2 =>
          let pfx : Int := 32 - (log2 : Int)
          match interval_to_cidrs_v4_loop fuel ((L + block) % 2 ^ 64) R with
          | none => none
          | some rest => some ((L % 2 ^ 32, pfx) :: rest)
    else some []

/-- Source `interval_to_cidrs_v4(uint32_t l, uint32_t r)`. The outer loop gets
one unit of fuel per address of the interval. `none` means a loop ran out of
fuel. -/
def interval_to_cidrs_v4 (l r : Nat) : Option (List Cidr) :=
  interval_to_cidrs_v4_loop (r - l + 1) (l % 2 ^ 32) (r % 2 ^ 32)

/-! ## 128-bit decomposer (`interval_to_cidrs_v6`, lines 200-233) -/

/-- Index of the lowest set bit among the low `n` bits of a non-zero value. -/
def lsb_scan : Nat → Nat → Nat
  | 0, _ => 0
  | n + 1, x => if x % 2 = 1 then 0 else 1 + lsb_scan n (x / 2)

/-- Index of the highest set bit of a non-zero value below `2 ^ n`. -/
def msb_scan : Nat → Nat → Nat
  | 0, _ => 0
  | n + 1, x => if x / 2 = 0 then 0 else 1 + msb_scan n (x / 2)

/-- Library `boost::multiprecision::lsb` on `u128`: index of the least
significant set bit; throws when no bit is set. -/
def lsb (x : Nat) : Except Fault Nat :=
  if x = 0 then .error .bit_scan_of_zero else .ok (lsb_scan 128 x)

/-- Library `boost::multiprecision::msb` on `u128`: index of the most
significant set bit; throws when no bit is set. -/
def msb (x : Nat) : Except Fault Nat :=
  if x = 0 then .error .bit_scan_of_zero else .ok (msb_scan 128 x)

/-- Source `floor_pow2` (lines 200-204): `u128(1) << msb(x)`. -/
def floor_pow2 (x : Nat) : Except Fault Nat :=
  match msb x with
  | .error e => .error e
  | .ok m => .ok ((1 <<< m) % 2 ^ 128)

/-- The `while (l <= r)` loop of lines 215-231, all arithmetic modulo `2 ^ 128`. -/
def interval_to_cidrs_v6_loop : Nat → Nat → Nat → Except Fault (List Cidr)
  | 0, l, r => if l ≤ r then .error .out_of_fuel else .ok []
  | fuel + 1, l, r =>
    if l ≤ r then
      let remaining := (r + 2 ^ 128 - l + 1) % 2 ^ 128
      match (if l = 0 then Except.ok 128 else lsb l) with
      | .error e => .error e
      | .ok tz =>
        let max_align :=
          if tz = 128 then (((1 <<< 127) % 2 ^ 128) <<< 1) % 2 ^ 128
          else (1 <<< tz) % 2 ^ 128
        match floor_pow2 remaining with
        | .error e => .error e
        | .ok max_len =>
          let block := if max_align < max_len then max_align else max_len
          match msb block with
          | .error e => .error e
          | .ok block_msb =>
            let pfx : Int := 128 - (block_msb : Int)
            match interval_to_cidrs_v6_loop fuel ((l + block) % 2 ^ 128) r with
            | .error e => .error e
            | .ok rest => .ok ((l, pfx) :: rest)
    else .ok []

/-- Source `interval_to_cidrs_v6(u128 l, u128 r)`; one unit of fuel per address
of the interval. -/
def interval_to_cidrs_v6 (l r : Nat) : Except Fault (List Cidr) :=
  if l = 0 ∧ r = U128_MAX then .ok [((0 : Nat), (0 : Int))]
  else interval_to_cidrs_v6_loop (r - l + 1) l r

/-! ## The 32-bit leg of `main` (lines 421-429) -/

/-- Lines 424-429: the parts returned by `interval_to_cidrs_v4` for the
normalised intervals, each cast to `uint32_t`, appended in order. -/
def cidr4_of_intervals : List Interval128 → Option (List Cidr)
  | [] => some []
  | it :: rest =>
    match interval_to_cidrs_v4 (it.l % 2 ^ 32) (it.r % 2 ^ 32) with
    | none => none
    | some part =>
      match cidr4_of_intervals rest with
      | none => none
      | some more => some (part ++ more)

/-- Lines 421 and 424-429 of `main`: normalise, then decompose every interval. -/
def main_cidr4 (iv4 : List Interval128) : Option (List Cidr) :=
  cidr4_of_intervals (union_normalize iv4)

/-! ## Block parser (`parse_cidr_ipv4`, `parse_cidr_ipv6`, lines 86-152) -/

/-- Library `std::string::find(char)`: position of the first occurrence. -/
def str_find (c : Char) : List Char → Option Nat
  | [] => none
  | x :: xs => if x = c then some 0 else (str_find c xs).map (· + 1)

/-- Library `isspace` in the C locale. -/
def is_space (c : Char) : Bool :=
  c.toNat = 32 || (9 ≤ c.toNat && c.toNat ≤ 13)

/-- Library `std::stoi(str)` with base 10: leading white space is skipped, an
optional sign and then the longest run of decimal digits are read, anything
after the digits is ignored; it throws (`none`) when there is no digit or the
value does not fit an `int`. -/
def stoi (s : List Char) : Option Int :=
  let s1 := s.dropWhile is_space
  let neg := s1.head? == some '-'
  let s2 := if s1.head? == some '-' || s1.head? == some '+' then s1.tail else s1
  let ds := s2.takeWhile Char.isDigit
  if ds.isEmpty then none
  else
    let mag : Int := ds.foldl (fun acc c => acc * 10 + ((c.toNat : Int) - 48)) 0
    let v : Int := if neg then -mag else mag
    if v < -(2 : Int) ^ 31 ∨ v > (2 : Int) ^ 31 - 1 then none else some v

/-- The operator `<<` on a `w`-bit unsigned value with an `int` amount. A shift
by a negative amount or by `w` or more is not evaluated by a correct program
(undefined for `uint32_t`); the model reports it as `none`. -/
def shl_checked (w : Nat) (a : Nat) (s : Int) : Option Nat :=
  if 0 ≤ s ∧ s < (w : Int) then some ((a <<< s.toNat) % 2 ^ w) else none

/-- Source `parse_cidr_ipv4`. `pton4 ip` stands for
`inet_pton(AF_INET, ip)` followed by `ntohl`: the 32-bit value of the address
text, or `none` when `inet_pton` does not return 1. -/
def parse_cidr_ipv4 (pton4 : List Char → Option Nat) (cidr : List Char) :
    Option Interval128 :=
  match str_find '/' cidr with
  | none => none
  | some pos =>
    let ip := cidr.take pos
    let ps := cidr.drop (pos + 1)
    match stoi ps with
    | none => none
    | some pfx =>
      if pfx < 0 ∨ pfx > 32 then none
      else
        match pton4 ip with
        | none => none
        | some x0 =>
          let x := x0 % 2 ^ 32
          match (if pfx = 0 then some 0 else shl_checked 32 0xFFFFFFFF (32 - pfx)) with
          | none => none
          | some mask =>
            let net := x &&& mask
            let bcast := net ||| (0xFFFFFFFF - mask)
            some ⟨net, bcast⟩

/-- Source `bytes_to_u128_be` (lines 108-115): fold of the 16 bytes, most
significant first; every byte is a `uint8_t`. -/
def bytes_to_u128_be (b : List Nat) : Nat :=
  (b.take 16).foldl (fun v bi => ((v <<< 8) % 2 ^ 128) ||| (bi % 256)) 0

/-- Source `parse_cidr_ipv6`. `pton6 ip` stands for `inet_pton(AF_INET6, ip)`:
the 16 address bytes, or `none` when `inet_pton` does not return 1. -/
def parse_cidr_ipv6 (pton6 : List Char → Option (List Nat)) (cidr : List Char) :
    Option Interval128 :=
  match str_find '/' cidr with
  | none => none
  | some pos =>
    let ip := cidr.take pos
    let ps := cidr.drop (pos + 1)
    match stoi ps with
    | none => none
    | some pfx =>
      if pfx < 0 ∨ pfx > 128 then none
      else
        match pton6 ip with
        | none => none
        | some a6 =>
          let x := bytes_to_u128_be a6
          match (if pfx = 0 then some 0
                 else if pfx = 128 then some U128_MAX
                 else shl_checked 128 U128_MAX (128 - pfx)) with
          | none => none
          | some mask =>
            let net := x &&& mask
            let hi := net ||| (U128_MAX - mask)
            some ⟨net, hi⟩

/-! ## Vocabulary of the statements -/

/-- Number of addresses of a block of prefix length `p` in a `w`-bit family. -/
def block_size (w : Nat) (p : Int) : Nat := 2 ^ ((w : Int) - p).toNat

/-- Address `x` lies in the range `[base, base + 2^(w-p) - 1]` of the block. -/
def in_block (w : Nat) (x : Nat) (c : Cidr) : Prop :=
  c.1 ≤ x ∧ x ≤ c.1 + block_size w c.2 - 1

/-- Address `x` lies in the interval. -/
def in_interval (x : Nat) (iv : Interval128) : Prop := iv.l ≤ x ∧ x ≤ iv.r

/-- A valid CIDR block of a `w`-bit family: prefix length within `[0, w]` and
base divisible by the block size. -/
def valid_cidr (w : Nat) (c : Cidr) : Prop :=
  0 ≤ c.2 ∧ c.2 ≤ (w : Int) ∧ block_size w c.2 ∣ c.1

/-- The blocks follow one another without gap from `start`: the first base is
`start`, every next base is the previous base plus the previous block size, and
the last block ends just before `stop`. -/
def tiles (w : Nat) : Nat → List Cidr → Nat → Prop
  | start, [], stop => start = stop
  | start, c :: rest, stop => c.1 = start ∧ tiles w (c.1 + block_size w c.2) rest stop

/-! ## Vocabulary of the proofs -/

/-- The branch condition of the sweep (line 189): overlap or adjacent. -/
def merges (cur nx : Interval128) : Prop :=
  nx.l ≤ cur.r ∨ (cur.r ≠ U128_MAX ∧ nx.l = (cur.r + 1) % 2 ^ 128)

instance merges_decidable (cur nx : Interval128) : Decidable (merges cur nx) := by
  unfold merges; infer_instance

/-- The accumulator after a merge (line 190). -/
def extend (cur nx : Interval128) : Interval128 :=
  if nx.r > cur.r then { cur with r := nx.r } else cur

/-- Well-formed interval of the 128-bit domain. -/
def wf_interval (iv : Interval128) : Prop := iv.l ≤ iv.r ∧ iv.r < 2 ^ 128

/-- Consecutive outputs of the normaliser: strictly ascending lows and a gap of
at least one address. -/
def gap_before (a b : Interval128) : Prop :=
  a.l < b.l ∧ a.r ≠ U128_MAX ∧ a.r + 1 < b.l

/-- What the greedy loop guarantees for a block it emits while covering
`[l, r]`: size `2 ^ k` with prefix `32 - k`, aligned, inside the interval,
not extendable to the right, and with its left sibling not inside. -/
def greedy_block (l r : Nat) (c : Cidr) : Prop :=
  ∃ k : Nat, k ≤ 32 ∧ c.2 = (32 : Int) - (k : Int) ∧ 2 ^ k ∣ c.1 ∧ l ≤ c.1 ∧
    c.1 + 2 ^ k ≤ r + 1 ∧
    (2 ^ (k + 1) ∣ c.1 → r + 1 < c.1 + 2 ^ (k + 1)) ∧
    (¬ 2 ^ (k + 1) ∣ c.1 → c.1 < l + 2 ^ k)

/-- Loop invariant of the greedy sweep at position `L`: at the alignment of
`L`, either the aligned block ending at `L` starts before `l`, or the aligned
block starting at `L` overruns `r`. -/
def greedy_inv (l r L : Nat) : Prop :=
  ∀ k, 2 ^ k ∣ L → ¬ 2 ^ (k + 1) ∣ L → L < l + 2 ^ k ∨ r + 1 < L + 2 ^ k

/-! ## Prefix text (vocabulary of the parser statements) -/

/-- Value of a run of decimal digits, most significant first. -/
def digits_value (ds : List Char) : Int :=
  ds.foldl (fun acc c => acc * 10 + ((c.toNat : Int) - 48)) 0

/-- The text is a base-10 integer of value `n`: an optional sign, then one or
more decimal digits, and nothing else. -/
def denotes_int (ps : List Char) (n : Int) : Prop :=
  ∃ ds, ds ≠ [] ∧ (∀ c ∈ ds, c.isDigit = true) ∧
    ((ps = ds ∧ n = digits_value ds) ∨ (ps = '+' :: ds ∧ n = digits_value ds) ∨
      (ps = '-' :: ds ∧ n = -digits_value ds))

/-- The text begins with a base-10 integer: optional white space, an optional
sign, then at least one decimal digit; anything may follow. -/
def starts_with_int (ps : List Char) : Prop :=
  ∃ ws sign ds rest, ps = ws ++ sign ++ ds ++ rest ∧ (∀ c ∈ ws, is_space c = true) ∧
    (sign = [] ∨ sign = ['+'] ∨ sign = ['-']) ∧ ds ≠ [] ∧ ∀ c ∈ ds, c.isDigit = true

/-! ## Text output (`write_txt`, lines 265-287, and its calls in `main`) -/

/-- Source `struct Source { int ipver; std::string proto_name; std::string url; }`. -/
structure Source where
  ipver : Int
  proto_name : String
  url : String

/-- Lines 273-275 of `write_txt`: one provenance line per source of the family. -/
def write_source_lines (ipver : Int) : List Source → List String
  | [] => []
  | s :: rest =>
    if s.ipver = ipver then
      ("# source[" ++ s.proto_name ++ "]=" ++ s.url) :: write_source_lines ipver rest
    else write_source_lines ipver rest

/-- The range-for loops of lines 278-280 and 283-285: one line
`address/prefix` per block, `ntop` being `u32_to_ipv4` or `u128_to_ipv6`. -/
def write_block_lines (ntop : Nat → String) : List Cidr → List String
  | [] => []
  | c :: rest => (ntop c.1 ++ "/" ++ toString c.2) :: write_block_lines ntop rest

/-- Source `write_txt` (lines 265-287), with the parameters in the order of the
source. The result is the path and the lines written to the file, each
statement `f << ... << "\n"` giving one line. `ntop4` and `ntop6` stand for
`u32_to_ipv4` and `u128_to_ipv6` (wrappers of `inet_ntop`). -/
def write_txt (ntop4 ntop6 : Nat → String) (path : String) (ipver : Int)
    (cidrs_v6 : List Cidr) (cidrs_v4 : List Cidr) (sources : List Source)
    (generated_at : String) : String × List String :=
  (path,
    ("# generated_at=" ++ generated_at) ::
      (write_source_lines ipver sources ++
        (if ipver = 4 then
          ("# count=" ++ toString cidrs_v4.length) :: write_block_lines ntop4 cidrs_v4
        else
          ("# count=" ++ toString cidrs_v6.length) :: write_block_lines ntop6 cidrs_v6)))

/-- Lines 448-449 of `main`: the two calls of `write_txt`, with `cidr6` and
`cidr4` the covers computed before. -/
def main_write_txt (ntop4 ntop6 : Nat → String) (out_dir : String)
    (cidr6 : List Cidr) (cidr4 : List Cidr) (sources : List Source) (ts : String) :
    List (String × List String) :=
  [write_txt ntop4 ntop6 (out_dir ++ "/ip4.txt") 4 cidr6 cidr4 sources ts,
   write_txt ntop4 ntop6 (out_dir ++ "/ip6.txt") 6 cidr6 cidr4 sources ts]

/-- The body of a text output for one block list: the count line, then one
line `address/prefix` per block in list order. -/
def txt_body (ntop : Nat → String) (cidrs : List Cidr) : List String :=
  ("# count=" ++ toString cidrs.length) ::
    cidrs.map (fun c => ntop c.1 ++ "/" ++ toString c.2)

/-! ## The 128-bit loop body on its own -/

/-- Lines 216-223 of the 128-bit loop on their own: the block size chosen in
the iteration at `l`, from `remaining`, `tz`, `max_align` and `max_len`. -/
def v6_block (l r : Nat) : Except Fault Nat :=
  let remaining := (r + 2 ^ 128 - l + 1) % 2 ^ 128
  match (if l = 0 then Except.ok 128 else lsb l) with
  | .error e => .error e
  | .ok tz =>
    let max_align :=
      if tz = 128 then (((1 <<< 127) % 2 ^ 128) <<< 1) % 2 ^ 128
      else (1 <<< tz) % 2 ^ 128
    match floor_pow2 remaining with
    | .error e => .error e
    | .ok max_len => .ok (if max_align < max_len then max_align else max_len)

/-- The 128-bit loop instrumented to record the value of `remaining` (line 216)
in every iteration it enters, up to the iteration in which it throws or the
loop ends. -/
def v6_remaining_trace : Nat → Nat → Nat → List Nat
  | 0, _, _ => []
  | fuel + 1, l, r =>
    if l ≤ r then
      ((r + 2 ^ 128 - l + 1) % 2 ^ 128) ::
        (match v6_block l r with
         | .error _ => []
         | .ok block =>
           match msb block with
           | .error _ => []
           | .ok _ => v6_remaining_trace fuel ((l + block) % 2 ^ 128) r)
    else []

/-! # Theorems -/

/-! ## Normaliser -/

/-! ## Facts about the sort order -/

theorem iv_le_iff (a b : Interval128) :
    iv_le a b ↔ a.l < b.l ∨ (a.l = b.l ∧ a.r ≤ b.r) := by
  unfold iv_le iv_less
  by_cases h : b.l = a.l
  · simp [h]
  · simp [h]; omega

instance iv_le_total : IsTotal Interval128 iv_le :=
  ⟨fun a b => by rw [iv_le_iff, iv_le_iff]; omega⟩

instance iv_le_trans : IsTrans Interval128 iv_le :=
  ⟨fun a b c => by rw [iv_le_iff, iv_le_iff, iv_le_iff]; omega⟩

theorem iv_le_low {a b : Interval128} (h : iv_le a b) : a.l ≤ b.l := by
  rw [iv_le_iff] at h; omega

theorem sweep_nil (cur : Interval128) : sweep cur [] = [cur] := rfl

theorem sweep_cond_eq (cur nx : Interval128) :
    (decide (nx.l ≤ cur.r) || (cur.r != U128_MAX) && (nx.l == (cur.r + 1) % 2 ^ 128))
      = decide (merges cur nx) := by
  rw [Bool.eq_iff_iff]
  simp only [merges, Bool.or_eq_true, Bool.and_eq_true, decide_eq_true_eq, bne_iff_ne,
    beq_iff_eq, ne_eq]

theorem sweep_cons_merge {cur nx : Interval128} (rest : List Interval128)
    (h : merges cur nx) : sweep cur (nx :: rest) = sweep (extend cur nx) rest := by
  simp only [sweep, sweep_cond_eq, extend, decide_eq_true h, if_true]

theorem sweep_cons_flush {cur nx : Interval128} (rest : List Interval128)
    (h : ¬ merges cur nx) : sweep cur (nx :: rest) = cur :: sweep nx rest := by
  simp only [sweep, sweep_cond_eq, decide_eq_false h]
  rfl

theorem extend_l (cur nx : Interval128) : (extend cur nx).l = cur.l := by
  unfold extend; split <;> rfl

theorem extend_r (cur nx : Interval128) : (extend cur nx).r = max cur.r nx.r := by
  unfold extend; split <;> simp <;> omega

theorem iv_le_chain {a b c : Interval128} (h1 : iv_le a b) (h2 : iv_le b c) : iv_le a c :=
  iv_le_trans.trans a b c h1 h2

theorem iv_le_extend {cur nx z : Interval128} (h1 : iv_le cur nx) (h2 : iv_le cur z)
    (h3 : iv_le nx z) : iv_le (extend cur nx) z := by
  rw [iv_le_iff] at *
  rw [extend_l, extend_r]
  omega

theorem iv_le_self_extend (cur nx : Interval128) : iv_le cur (extend cur nx) := by
  rw [iv_le_iff, extend_l, extend_r]; omega

/-- The first interval the sweep emits starts where the accumulator starts. -/
theorem sweep_head (cur : Interval128) (xs : List Interval128) :
    ∃ hd tl, sweep cur xs = hd :: tl ∧ hd.l = cur.l := by
  induction xs generalizing cur with
  | nil => exact ⟨cur, [], rfl, rfl⟩
  | cons nx rest ih =>
    by_cases h : merges cur nx
    · rw [sweep_cons_merge rest h]
      obtain ⟨hd, tl, e, hl⟩ := ih (extend cur nx)
      exact ⟨hd, tl, e, by rw [hl, extend_l]⟩
    · rw [sweep_cons_flush rest h]
      exact ⟨cur, _, rfl, rfl⟩

/-- On sorted input the sweep emits a sorted list that stays above the
accumulator. -/
theorem sweep_sorted (cur : Interval128) (xs : List Interval128)
    (hc : ∀ z ∈ xs, iv_le cur z) (hs : xs.Sorted iv_le) :
    (sweep cur xs).Sorted iv_le ∧ ∀ y ∈ sweep cur xs, iv_le cur y := by
  induction xs generalizing cur with
  | nil =>
    refine ⟨by simp [sweep_nil], ?_⟩
    intro y hy
    simp [sweep_nil] at hy
    subst hy
    exact (iv_le_iff _ _).2 (Or.inr ⟨rfl, le_refl _⟩)
  | cons nx rest ih =>
    have hnx : iv_le cur nx := hc nx (List.mem_cons_self _ _)
    have hs' := List.sorted_cons.1 hs
    by_cases h : merges cur nx
    · rw [sweep_cons_merge rest h]
      have hc' : ∀ z ∈ rest, iv_le (extend cur nx) z := fun z hz =>
        iv_le_extend hnx (hc z (List.mem_cons_of_mem _ hz)) (hs'.1 z hz)
      obtain ⟨i1, i2⟩ := ih (extend cur nx) hc' hs'.2
      exact ⟨i1, fun y hy => iv_le_chain (iv_le_self_extend cur nx) (i2 y hy)⟩
    · rw [sweep_cons_flush rest h]
      obtain ⟨i1, i2⟩ := ih nx hs'.1 hs'.2
      refine ⟨List.sorted_cons.2 ⟨fun y hy => iv_le_chain hnx (i2 y hy), i1⟩, ?_⟩
      intro y hy
      rcases List.mem_cons.1 hy with rfl | hy
      · exact (iv_le_iff _ _).2 (Or.inr ⟨rfl, le_refl _⟩)
      · exact iv_le_chain hnx (i2 y hy)

theorem merges_congr_l {a b b2 : Interval128} (h : b.l = b2.l) :
    merges a b ↔ merges a b2 := by
  unfold merges; rw [h]

/-- No two consecutive intervals the sweep emits would merge. -/
theorem sweep_chain (cur : Interval128) (xs : List Interval128) :
    List.Chain' (fun a b => ¬ merges a b) (sweep cur xs) := by
  induction xs generalizing cur with
  | nil => simp [sweep_nil]
  | cons nx rest ih =>
    by_cases h : merges cur nx
    · rw [sweep_cons_merge rest h]; exact ih _
    · rw [sweep_cons_flush rest h]
      obtain ⟨hd, tl, e, hl⟩ := sweep_head nx rest
      have := ih nx
      rw [e] at this ⊢
      exact List.Chain'.cons (by rwa [merges_congr_l hl]) this

/-- The sweep leaves a list without mergeable neighbours as it is. -/
theorem sweep_fixed (cur : Interval128) (xs : List Interval128)
    (h : List.Chain (fun a b => ¬ merges a b) cur xs) : sweep cur xs = cur :: xs := by
  induction xs generalizing cur with
  | nil => rfl
  | cons nx rest ih =>
    rw [List.chain_cons] at h
    rw [sweep_cons_flush rest h.1, ih nx h.2]

theorem union_normalize_nil : union_normalize [] = [] := rfl

theorem union_normalize_eq_sweep (xs : List Interval128) (x0 : Interval128)
    (rest : List Interval128) (h : List.insertionSort iv_le xs = x0 :: rest) :
    union_normalize xs = sweep x0 rest := by
  unfold union_normalize
  cases xs with
  | nil => simp at h
  | cons a t => simp only [List.isEmpty_cons, Bool.false_eq_true, if_false, h]

theorem insertionSort_eq_nil {xs : List Interval128}
    (h : List.insertionSort iv_le xs = []) : xs = [] := by
  have := (List.perm_insertionSort iv_le xs).length_eq
  rw [h] at this
  exact List.length_eq_zero.1 this.symm

theorem union_normalize_sorted (xs : List Interval128) :
    (union_normalize xs).Sorted iv_le := by
  rcases hsort : List.insertionSort iv_le xs with _ | ⟨x0, rest⟩
  · rw [insertionSort_eq_nil hsort]; simp [union_normalize_nil]
  · rw [union_normalize_eq_sweep xs x0 rest hsort]
    have hs : (x0 :: rest).Sorted iv_le := hsort ▸ List.sorted_insertionSort iv_le xs
    have hs' := List.sorted_cons.1 hs
    exact (sweep_sorted x0 rest hs'.1 hs'.2).1

theorem union_normalize_chain (xs : List Interval128) :
    List.Chain' (fun a b => ¬ merges a b) (union_normalize xs) := by
  rcases hsort : List.insertionSort iv_le xs with _ | ⟨x0, rest⟩
  · rw [insertionSort_eq_nil hsort]; simp [union_normalize_nil]
  · rw [union_normalize_eq_sweep xs x0 rest hsort]
    exact sweep_chain x0 rest

/-- C4. Idempotence of normalisation: running `union_normalize` on its own
output returns that output unchanged, for every list of intervals. -/
theorem union_normalize_idempotent (S : List Interval128) :
    union_normalize (union_normalize S) = union_normalize S := by
  have hs := union_normalize_sorted S
  have hc := union_normalize_chain S
  rcases hN : union_normalize S with _ | ⟨y0, ys⟩
  · rfl
  · rw [hN] at hs hc
    rw [union_normalize_eq_sweep (y0 :: ys) y0 ys (List.Sorted.insertionSort_eq hs)]
    exact sweep_fixed y0 ys hc

theorem wf_extend {cur nx : Interval128} (h1 : wf_interval cur) (h2 : wf_interval nx) :
    wf_interval (extend cur nx) := by
  unfold wf_interval at *
  rw [extend_l, extend_r]
  omega

theorem not_merges_gap {cur nx : Interval128} (h1 : wf_interval cur) (h2 : wf_interval nx)
    (h : ¬ merges cur nx) : cur.r ≠ U128_MAX ∧ cur.r + 1 < nx.l := by
  unfold merges at h
  unfold wf_interval at h1 h2
  unfold U128_MAX at *
  push_neg at h
  obtain ⟨h3, h4⟩ := h
  have h5 : cur.r ≠ 2 ^ 128 - 1 := by omega
  have h6 := h4 h5
  rw [Nat.mod_eq_of_lt (by omega)] at h6
  exact ⟨h5, by omega⟩

theorem sweep_wf (cur : Interval128) (xs : List Interval128) (hc : wf_interval cur)
    (hx : ∀ z ∈ xs, wf_interval z) : ∀ y ∈ sweep cur xs, wf_interval y := by
  induction xs generalizing cur with
  | nil => intro y hy; simp [sweep_nil] at hy; subst hy; exact hc
  | cons nx rest ih =>
    have hnx := hx nx (List.mem_cons_self _ _)
    have hrest : ∀ z ∈ rest, wf_interval z := fun z hz => hx z (List.mem_cons_of_mem _ hz)
    by_cases h : merges cur nx
    · rw [sweep_cons_merge rest h]; exact ih _ (wf_extend hc hnx) hrest
    · rw [sweep_cons_flush rest h]
      intro y hy
      rcases List.mem_cons.1 hy with rfl | hy
      · exact hc
      · exact ih nx hnx hrest y hy

theorem sweep_gaps (cur : Interval128) (xs : List Interval128) (hc : wf_interval cur)
    (hx : ∀ z ∈ xs, wf_interval z) (hle : ∀ z ∈ xs, iv_le cur z) (hs : xs.Sorted iv_le) :
    List.Pairwise gap_before (sweep cur xs) := by
  induction xs generalizing cur with
  | nil => simp [sweep_nil]
  | cons nx rest ih =>
    have hnx := hx nx (List.mem_cons_self _ _)
    have hrest : ∀ z ∈ rest, wf_interval z := fun z hz => hx z (List.mem_cons_of_mem _ hz)
    have hs' := List.sorted_cons.1 hs
    have hcn : iv_le cur nx := hle nx (List.mem_cons_self _ _)
    by_cases h : merges cur nx
    · rw [sweep_cons_merge rest h]
      exact ih _ (wf_extend hc hnx) hrest
        (fun z hz => iv_le_extend hcn (hle z (List.mem_cons_of_mem _ hz)) (hs'.1 z hz)) hs'.2
    · rw [sweep_cons_flush rest h]
      refine List.pairwise_cons.2 ⟨?_, ih nx hnx hrest hs'.1 hs'.2⟩
      intro y hy
      have hy1 := iv_le_low ((sweep_sorted nx rest hs'.1 hs'.2).2 y hy)
      obtain ⟨g1, g2⟩ := not_merges_gap hc hnx h
      unfold wf_interval at hc
      exact ⟨by omega, g1, by omega⟩

theorem in_extend {cur nx : Interval128} (h1 : wf_interval cur) (h2 : wf_interval nx)
    (hl : cur.l ≤ nx.l) (h : merges cur nx) (x : Nat) :
    in_interval x (extend cur nx) ↔ in_interval x cur ∨ in_interval x nx := by
  unfold in_interval
  rw [extend_l, extend_r]
  unfold merges at h
  unfold wf_interval at h1 h2
  unfold U128_MAX at h
  rcases h with h | ⟨h3, h4⟩
  · omega
  · rw [Nat.mod_eq_of_lt (by omega)] at h4
    omega

theorem sweep_union (cur : Interval128) (xs : List Interval128) (hc : wf_interval cur)
    (hx : ∀ z ∈ xs, wf_interval z) (hle : ∀ z ∈ xs, iv_le cur z) (hs : xs.Sorted iv_le)
    (x : Nat) :
    (∃ y ∈ sweep cur xs, in_interval x y) ↔
      in_interval x cur ∨ ∃ z ∈ xs, in_interval x z := by
  induction xs generalizing cur with
  | nil => simp [sweep_nil]
  | cons nx rest ih =>
    have hnx := hx nx (List.mem_cons_self _ _)
    have hrest : ∀ z ∈ rest, wf_interval z := fun z hz => hx z (List.mem_cons_of_mem _ hz)
    have hs' := List.sorted_cons.1 hs
    have hcn : iv_le cur nx := hle nx (List.mem_cons_self _ _)
    by_cases h : merges cur nx
    · rw [sweep_cons_merge rest h,
        ih _ (wf_extend hc hnx) hrest
          (fun z hz => iv_le_extend hcn (hle z (List.mem_cons_of_mem _ hz)) (hs'.1 z hz))
          hs'.2,
        in_extend hc hnx (iv_le_low hcn) h]
      simp only [List.exists_mem_cons_iff]
      tauto
    · rw [sweep_cons_flush rest h]
      simp only [List.exists_mem_cons_iff]
      rw [ih nx hnx hrest hs'.1 hs'.2]

theorem mem_insertionSort_iff (xs : List Interval128) (z : Interval128) :
    z ∈ List.insertionSort iv_le xs ↔ z ∈ xs :=
  (List.perm_insertionSort iv_le xs).mem_iff

theorem wf_of_bounds (S : List Interval128)
    (hS : ∀ iv ∈ S, iv.l ≤ iv.r ∧ iv.r ≤ U128_MAX) : ∀ iv ∈ S, wf_interval iv := by
  intro z hz
  have := hS z hz
  unfold U128_MAX at this
  unfold wf_interval
  omega

theorem union_normalize_union (S : List Interval128)
    (hS : ∀ iv ∈ S, wf_interval iv) (x : Nat) :
    (∃ iv ∈ union_normalize S, in_interval x iv) ↔ ∃ iv ∈ S, in_interval x iv := by
  rcases hsort : List.insertionSort iv_le S with _ | ⟨x0, rest⟩
  · rw [insertionSort_eq_nil hsort]; simp [union_normalize_nil]
  · rw [union_normalize_eq_sweep S x0 rest hsort]
    have hwf : ∀ z ∈ x0 :: rest, wf_interval z := by
      intro z hz
      rw [← hsort] at hz
      exact hS z ((mem_insertionSort_iff S z).1 hz)
    have hs : (x0 :: rest).Sorted iv_le := hsort ▸ List.sorted_insertionSort iv_le S
    have hs' := List.sorted_cons.1 hs
    rw [sweep_union x0 rest (hwf x0 (List.mem_cons_self _ _))
      (fun z hz => hwf z (List.mem_cons_of_mem _ hz)) hs'.1 hs'.2]
    rw [← List.exists_mem_cons_iff (p := fun z => in_interval x z), ← hsort]
    constructor
    · rintro ⟨z, hz, hin⟩; exact ⟨z, (mem_insertionSort_iff S z).1 hz, hin⟩
    · rintro ⟨z, hz, hin⟩; exact ⟨z, (mem_insertionSort_iff S z).2 hz, hin⟩

/-- C2. Union preservation: an address lies in some interval of
`union_normalize S` exactly when it lies in some interval of `S`, for every
list `S` of 128-bit intervals with `low ≤ high`. -/
theorem union_normalize_preserves_union (S : List Interval128)
    (hS : ∀ iv ∈ S, iv.l ≤ iv.r ∧ iv.r ≤ U128_MAX) (x : Nat) :
    (∃ iv ∈ union_normalize S, in_interval x iv) ↔ ∃ iv ∈ S, in_interval x iv :=
  union_normalize_union S (wf_of_bounds S hS) x

theorem union_normalize_preserves_union_witness :
    (∀ iv ∈ [(⟨5, 9⟩ : Interval128), ⟨1, 3⟩, ⟨4, 4⟩], iv.l ≤ iv.r ∧ iv.r ≤ U128_MAX) ∧
    ((∃ iv ∈ union_normalize [⟨5, 9⟩, ⟨1, 3⟩, ⟨4, 4⟩], in_interval 4 iv) ↔
      ∃ iv ∈ [(⟨5, 9⟩ : Interval128), ⟨1, 3⟩, ⟨4, 4⟩], in_interval 4 iv) :=
  ⟨by unfold U128_MAX; simp,
    union_normalize_preserves_union [⟨5, 9⟩, ⟨1, 3⟩, ⟨4, 4⟩] (by unfold U128_MAX; simp) 4⟩

theorem union_normalize_wf (S : List Interval128)
    (hS : ∀ iv ∈ S, wf_interval iv) : ∀ iv ∈ union_normalize S, wf_interval iv := by
  rcases hsort : List.insertionSort iv_le S with _ | ⟨x0, rest⟩
  · rw [insertionSort_eq_nil hsort]; simp [union_normalize_nil]
  · rw [union_normalize_eq_sweep S x0 rest hsort]
    have hwf : ∀ z ∈ x0 :: rest, wf_interval z := by
      intro z hz
      rw [← hsort] at hz
      exact hS z ((mem_insertionSort_iff S z).1 hz)
    exact sweep_wf x0 rest (hwf x0 (List.mem_cons_self _ _))
      (fun z hz => hwf z (List.mem_cons_of_mem _ hz))

theorem union_normalize_pairwise_gap (S : List Interval128)
    (hS : ∀ iv ∈ S, wf_interval iv) : List.Pairwise gap_before (union_normalize S) := by
  rcases hsort : List.insertionSort iv_le S with _ | ⟨x0, rest⟩
  · rw [insertionSort_eq_nil hsort]; simp [union_normalize_nil]
  · rw [union_normalize_eq_sweep S x0 rest hsort]
    have hwf : ∀ z ∈ x0 :: rest, wf_interval z := by
      intro z hz
      rw [← hsort] at hz
      exact hS z ((mem_insertionSort_iff S z).1 hz)
    have hs : (x0 :: rest).Sorted iv_le := hsort ▸ List.sorted_insertionSort iv_le S
    have hs' := List.sorted_cons.1 hs
    exact sweep_gaps x0 rest (hwf x0 (List.mem_cons_self _ _))
      (fun z hz => hwf z (List.mem_cons_of_mem _ hz)) hs'.1 hs'.2

/-- C3. Disjointness and non-adjacency: for every list `S` of 128-bit intervals
with `low ≤ high`, every two consecutive outputs of `union_normalize S` (and
likewise every earlier/later pair) have strictly ascending lows, the earlier
high is not `U128_MAX`, and `high + 1 < low` of the later one; hence any two
outputs share no address. -/
theorem union_normalize_disjoint_nonadjacent (S : List Interval128)
    (hS : ∀ iv ∈ S, iv.l ≤ iv.r ∧ iv.r ≤ U128_MAX) :
    List.Chain' (fun a b => a.l < b.l ∧ a.r ≠ U128_MAX ∧ a.r + 1 < b.l)
        (union_normalize S) ∧
      List.Pairwise (fun a b => a.l < b.l ∧ a.r ≠ U128_MAX ∧ a.r + 1 < b.l)
        (union_normalize S) ∧
      List.Pairwise (fun a b => ∀ x, ¬ (in_interval x a ∧ in_interval x b))
        (union_normalize S) := by
  have hwf : ∀ iv ∈ S, wf_interval iv := by
    intro z hz
    have := hS z hz
    unfold U128_MAX at this
    unfold wf_interval
    omega
  have hp := union_normalize_pairwise_gap S hwf
  refine ⟨List.Pairwise.chain' hp, hp, ?_⟩
  refine List.Pairwise.imp ?_ hp
  intro a b hab x hx
  unfold gap_before at hab
  unfold in_interval at hx
  omega

theorem union_normalize_disjoint_nonadjacent_witness :
    (∀ iv ∈ [(⟨5, 9⟩ : Interval128), ⟨1, 3⟩, ⟨20, 30⟩], iv.l ≤ iv.r ∧ iv.r ≤ U128_MAX) ∧
    (List.Chain' (fun a b => a.l < b.l ∧ a.r ≠ U128_MAX ∧ a.r + 1 < b.l)
        (union_normalize [⟨5, 9⟩, ⟨1, 3⟩, ⟨20, 30⟩]) ∧
      List.Pairwise (fun a b => a.l < b.l ∧ a.r ≠ U128_MAX ∧ a.r + 1 < b.l)
        (union_normalize [⟨5, 9⟩, ⟨1, 3⟩, ⟨20, 30⟩]) ∧
      List.Pairwise (fun a b => ∀ x, ¬ (in_interval x a ∧ in_interval x b))
        (union_normalize [⟨5, 9⟩, ⟨1, 3⟩, ⟨20, 30⟩])) :=
  ⟨by unfold U128_MAX; simp,
    union_normalize_disjoint_nonadjacent [⟨5, 9⟩, ⟨1, 3⟩, ⟨20, 30⟩]
      (by unfold U128_MAX; simp)⟩

/-! ## Bit tricks of the 32-bit decomposer -/

theorem and_compl_eq_zero (n m : Nat) (h : m < 2 ^ n) : m &&& (2 ^ n - (m + 1)) = 0 := by
  apply Nat.eq_of_testBit_eq
  intro i
  rw [Nat.testBit_and, Nat.testBit_two_pow_sub_succ h]
  cases m.testBit i <;> simp

/-- The lowest set bit of `L`, as `L & -L` computes it in `n`-bit arithmetic. -/
theorem and_neg_eq_lowbit (n : Nat) : ∀ L, 0 < L → L < 2 ^ n →
    ∃ k, k < n ∧ L &&& (2 ^ n - L) = 2 ^ k ∧ 2 ^ k ∣ L ∧ ¬ 2 ^ (k + 1) ∣ L := by
  induction n with
  | zero => intro L h0 h1; simp at h1; omega
  | succ n ih =>
    intro L h0 h1
    have hp : 2 ^ (n + 1) = 2 * 2 ^ n := by rw [pow_succ]; ring
    have hdiv : (L &&& (2 ^ (n + 1) - L)) / 2 = L / 2 &&& (2 ^ (n + 1) - L) / 2 :=
      Nat.and_div_two
    have hmod := @Nat.and_mod_two_eq_one L (2 ^ (n + 1) - L)
    rcases Nat.mod_two_eq_zero_or_one L with he | ho
    · -- even
      have hm0 : 0 < L / 2 := by omega
      have hm1 : L / 2 < 2 ^ n := by omega
      obtain ⟨k, hk, e, d1, d2⟩ := ih (L / 2) hm0 hm1
      have e2 : (2 ^ (n + 1) - L) / 2 = 2 ^ n - L / 2 := by omega
      rw [e2, e] at hdiv
      have hv0 : (L &&& (2 ^ (n + 1) - L)) % 2 = 0 := by
        rcases Nat.mod_two_eq_zero_or_one (L &&& (2 ^ (n + 1) - L)) with h | h
        · exact h
        · have := hmod.1 h; omega
      refine ⟨k + 1, by omega, ?_, ?_, ?_⟩
      · have : 2 ^ (k + 1) = 2 * 2 ^ k := by rw [pow_succ]; ring
        omega
      · have hL : L = 2 * (L / 2) := by omega
        rw [hL, pow_succ, mul_comm]
        exact Nat.mul_dvd_mul_left 2 d1
      · intro hd
        apply d2
        have hL : L = 2 * (L / 2) := by omega
        rw [hL, pow_succ (2 : Nat) (k + 1), mul_comm] at hd
        exact (Nat.mul_dvd_mul_iff_left (by norm_num)).1 hd
    · -- odd
      have e2 : (2 ^ (n + 1) - L) / 2 = 2 ^ n - (L / 2 + 1) := by omega
      have hz := and_compl_eq_zero n (L / 2) (by omega)
      rw [e2, hz] at hdiv
      have hv1 : (L &&& (2 ^ (n + 1) - L)) % 2 = 1 := hmod.2 ⟨ho, by omega⟩
      refine ⟨0, by omega, by simp; omega, by simp, ?_⟩
      simp only [zero_add, pow_one]
      omega

theorem lowbit64_spec (L : Nat) (h0 : 0 < L) (h1 : L < 2 ^ 64) :
    ∃ k, k < 64 ∧ lowbit64 L = 2 ^ k ∧ 2 ^ k ∣ L ∧ ¬ 2 ^ (k + 1) ∣ L := by
  have e : ((2 ^ 64 - 1 - L) + 1) % 2 ^ 64 = 2 ^ 64 - L := by
    rw [Nat.mod_eq_of_lt] <;> omega
  unfold lowbit64
  rw [e]
  exact and_neg_eq_lowbit 64 L h0 h1

theorem max_len_loop_spec (remaining : Nat) (hr : remaining < 2 ^ 63) :
    ∀ fuel i, 2 ^ i ≤ remaining → 64 ≤ fuel + i →
      ∃ j, i ≤ j ∧ max_len_loop fuel (2 ^ i) remaining = some (2 ^ j) ∧
        2 ^ j ≤ remaining ∧ remaining < 2 ^ (j + 1) := by
  intro fuel
  induction fuel with
  | zero =>
    intro i hi hf
    have : 2 ^ 64 ≤ 2 ^ i := Nat.pow_le_pow_right (by norm_num) (by omega)
    omega
  | succ fuel ih =>
    intro i hi hf
    have hi63 : i < 63 := by
      by_contra hc
      have : 2 ^ 63 ≤ 2 ^ i := Nat.pow_le_pow_right (by norm_num) (by omega)
      omega
    have hsh : (2 ^ i <<< 1) % 2 ^ 64 = 2 ^ (i + 1) := by
      rw [Nat.shiftLeft_eq, pow_one, ← pow_succ]
      apply Nat.mod_eq_of_lt
      exact Nat.pow_lt_pow_right (by norm_num) (by omega)
    simp only [max_len_loop, hsh]
    by_cases hc : 2 ^ (i + 1) ≤ remaining
    · rw [if_pos hc]
      obtain ⟨j, h1, h2, h3, h4⟩ := ih (i + 1) hc (by omega)
      exact ⟨j, by omega, h2, h3, h4⟩
    · rw [if_neg hc]
      exact ⟨i, le_refl _, rfl, hi, by omega⟩

theorem log2_loop_spec (k : Nat) (hk : k < 64) :
    ∀ fuel i, i ≤ k → k < fuel + i → log2_loop fuel i (2 ^ k) = some k := by
  intro fuel
  induction fuel with
  | zero => intro i h1 h2; omega
  | succ fuel ih =>
    intro i h1 h2
    have hsh : (1 <<< i) % 2 ^ 64 = 2 ^ i := by
      rw [Nat.shiftLeft_eq, one_mul]
      apply Nat.mod_eq_of_lt
      exact Nat.pow_lt_pow_right (by norm_num) (by omega)
    simp only [log2_loop, hsh]
    by_cases hc : i < k
    · rw [if_pos (Nat.pow_lt_pow_right (by norm_num) hc)]
      exact ih (i + 1) hc (by omega)
    · have : i = k := by omega
      subst this
      rw [if_neg (lt_irrefl _)]

theorem pow_two_le_of_dvd_lt {t L n : Nat} (h0 : 0 < L) (hd : 2 ^ t ∣ L) (hL : L < 2 ^ n) :
    t < n := by
  by_contra hc
  have h1 : 2 ^ n ≤ 2 ^ t := Nat.pow_le_pow_right (by norm_num) (by omega)
  have h2 := Nat.le_of_dvd h0 hd
  omega

theorem min_two_pow (a b : Nat) : min (2 ^ a) (2 ^ b) = 2 ^ (min a b) := by
  rcases Nat.le_total a b with h | h
  · rw [Nat.min_eq_left h, Nat.min_eq_left (Nat.pow_le_pow_right (by norm_num) h)]
  · rw [Nat.min_eq_right h, Nat.min_eq_right (Nat.pow_le_pow_right (by norm_num) h)]

/-- The block size one iteration of the 32-bit loop chooses: it is some `2 ^ k`
that divides `L`, fits into what remains, and cannot be doubled. -/
theorem v4_block_choice (L R : Nat) (hLR : L ≤ R) (hR : R < 2 ^ 32) :
    ∃ k : Nat, k ≤ 32 ∧ 2 ^ k ∣ L ∧ L + 2 ^ k ≤ R + 1 ∧
      (2 ^ (k + 1) ∣ L → R + 1 < L + 2 ^ (k + 1)) ∧
      ∃ max_len, max_len_loop 64 1 ((R + 2 ^ 64 - L + 1) % 2 ^ 64) = some max_len ∧
        min (if L = 0 then (1 <<< 32) % 2 ^ 64 else lowbit64 L) max_len = 2 ^ k := by
  have hrem : (R + 2 ^ 64 - L + 1) % 2 ^ 64 = R - L + 1 := by
    have : R + 2 ^ 64 - L + 1 = (R - L + 1) + 2 ^ 64 := by omega
    rw [this, Nat.add_mod_right, Nat.mod_eq_of_lt]
    omega
  rw [hrem]
  obtain ⟨j, -, hj1, hj2, hj3⟩ :=
    max_len_loop_spec (R - L + 1) (by omega) 64 0 (by simp) (by omega)
  rw [pow_zero] at hj1
  have hj32 : j ≤ 32 := by
    by_contra hc
    have : 2 ^ 33 ≤ 2 ^ j := Nat.pow_le_pow_right (by norm_num) (by omega)
    omega
  by_cases h0 : L = 0
  · subst h0
    refine ⟨j, hj32, by simp, by omega, fun _ => by omega, 2 ^ j, hj1, ?_⟩
    have : (1 <<< 32) % 2 ^ 64 = 2 ^ 32 := by decide
    rw [if_pos rfl, this, min_two_pow, Nat.min_eq_right hj32]
  · obtain ⟨t, ht, e, d1, d2⟩ := lowbit64_spec L (by omega) (by omega)
    refine ⟨min t j, by omega, ?_, ?_, ?_, 2 ^ j, hj1, ?_⟩
    · exact Nat.dvd_trans (Nat.pow_dvd_pow 2 (Nat.min_le_left t j)) d1
    · have : 2 ^ (min t j) ≤ 2 ^ j := Nat.pow_le_pow_right (by norm_num) (Nat.min_le_right t j)
      omega
    · intro hd
      have htj : ¬ t ≤ j := by
        intro hle
        rw [Nat.min_eq_left hle] at hd
        exact d2 hd
      rw [Nat.min_eq_right (by omega)]
      omega
    · rw [if_neg h0, e, min_two_pow]

/-- One iteration of the 32-bit loop, with the block it emits. -/
theorem v4_loop_step (fuel L R : Nat) (hLR : L ≤ R) (hR : R < 2 ^ 32) :
    ∃ k : Nat, k ≤ 32 ∧ 2 ^ k ∣ L ∧ L + 2 ^ k ≤ R + 1 ∧
      (2 ^ (k + 1) ∣ L → R + 1 < L + 2 ^ (k + 1)) ∧
      interval_to_cidrs_v4_loop (fuel + 1) L R =
        (interval_to_cidrs_v4_loop fuel (L + 2 ^ k) R).map
          (fun rest => (L, (32 : Int) - (k : Int)) :: rest) := by
  obtain ⟨k, hk, h1, h2, h3, max_len, hm, hb⟩ := v4_block_choice L R hLR hR
  refine ⟨k, hk, h1, h2, h3, ?_⟩
  have hlog := log2_loop_spec k (by omega) 64 0 (by omega) (by omega)
  have hL : L % 2 ^ 32 = L := Nat.mod_eq_of_lt (by omega)
  have hadv : (L + 2 ^ k) % 2 ^ 64 = L + 2 ^ k := Nat.mod_eq_of_lt (by omega)
  simp only [interval_to_cidrs_v4_loop, if_pos hLR, hm, hb, hlog, hL, hadv]
  cases interval_to_cidrs_v4_loop fuel (L + 2 ^ k) R <;> rfl

theorem two_pow_succ (k : Nat) : 2 ^ (k + 1) = 2 ^ k + 2 ^ k := by
  rw [pow_succ]; omega

theorem dvd_add_half {k L : Nat} (h1 : 2 ^ k ∣ L) (h2 : ¬ 2 ^ (k + 1) ∣ L) :
    2 ^ (k + 1) ∣ L + 2 ^ k := by
  obtain ⟨m, rfl⟩ := h1
  have hm : m % 2 = 1 := by
    rcases Nat.mod_two_eq_zero_or_one m with h | h
    · exfalso; apply h2
      obtain ⟨q, rfl⟩ := Nat.dvd_of_mod_eq_zero h
      exact ⟨q, by rw [pow_succ]; ring⟩
    · exact h
  refine ⟨m / 2 + 1, ?_⟩
  have : m = 2 * (m / 2) + 1 := by omega
  rw [pow_succ]
  conv_lhs => rw [this]
  ring

theorem not_dvd_add_half {k L : Nat} (h : 2 ^ (k + 1) ∣ L) : ¬ 2 ^ (k + 1) ∣ L + 2 ^ k := by
  intro hd
  have h2 : 2 ^ (k + 1) ∣ 2 ^ k := (Nat.dvd_add_right h).1 hd
  have := Nat.le_of_dvd (by positivity) h2
  have := two_pow_succ k
  have : 0 < 2 ^ k := by positivity
  omega

theorem pow_dvd_of_le_of_dvd {a b x : Nat} (hab : a ≤ b) (h : 2 ^ b ∣ x) : 2 ^ a ∣ x :=
  Nat.dvd_trans (Nat.pow_dvd_pow 2 hab) h

theorem greedy_inv_start (l r : Nat) : greedy_inv l r l := by
  intro k _ _
  have : 0 < 2 ^ k := by positivity
  omega

theorem greedy_inv_step {l r L k : Nat} (hinv : greedy_inv l r L)
    (h1 : 2 ^ k ∣ L) (h2 : L + 2 ^ k ≤ r + 1)
    (h3 : 2 ^ (k + 1) ∣ L → r + 1 < L + 2 ^ (k + 1)) : greedy_inv l r (L + 2 ^ k) := by
  intro j hj1 hj2
  by_cases hd : 2 ^ (k + 1) ∣ L
  · -- the block was limited by what remains
    have hnd := not_dvd_add_half hd
    have hjk : j = k := by
      rcases Nat.lt_trichotomy j k with h | h | h
      · exfalso; apply hj2
        exact pow_dvd_of_le_of_dvd (by omega) (Nat.dvd_add (pow_dvd_of_le_of_dvd (by omega) hd)
          (dvd_refl _))
      · exact h
      · exfalso; apply hnd
        exact pow_dvd_of_le_of_dvd (by omega) hj1
    subst hjk
    right
    have := h3 hd
    have := two_pow_succ j
    omega
  · -- the block was limited by the alignment of L
    have hL : L < l + 2 ^ k := by
      rcases hinv k h1 hd with h | h
      · exact h
      · omega
    have hd2 := dvd_add_half h1 hd
    have hjk : k + 1 ≤ j := by
      by_contra hc
      apply hj2
      exact pow_dvd_of_le_of_dvd (by omega) hd2
    left
    have h4 : 2 ^ (k + 1) ≤ 2 ^ j := Nat.pow_le_pow_right (by norm_num) hjk
    have := two_pow_succ k
    omega

theorem block_size_sub (k : Nat) (hk : k ≤ 32) : block_size 32 ((32 : Int) - (k : Int)) = 2 ^ k := by
  unfold block_size
  congr 1
  omega

/-- The 32-bit loop from position `L` ends within its fuel and emits blocks that
follow one another from `L` to `R`, each a greedy block for `[l, R]`. -/
theorem v4_loop_spec (l R : Nat) (hR : R < 2 ^ 32) :
    ∀ fuel L, l ≤ L → L ≤ R + 1 → R + 1 - L ≤ fuel → greedy_inv l R L →
      ∃ bs, interval_to_cidrs_v4_loop fuel L R = some bs ∧ tiles 32 L bs (R + 1) ∧
        ∀ c ∈ bs, greedy_block l R c := by
  intro fuel
  induction fuel with
  | zero =>
    intro L h1 h2 h3 _
    have : ¬ L ≤ R := by omega
    refine ⟨[], by simp [interval_to_cidrs_v4_loop, this], ?_, by simp⟩
    simp only [tiles]; omega
  | succ fuel ih =>
    intro L h1 h2 h3 hinv
    by_cases hLR : L ≤ R
    · obtain ⟨k, hk, d1, d2, d3, e⟩ := v4_loop_step fuel L R hLR hR
      have hpos : 0 < 2 ^ k := by positivity
      obtain ⟨rest, e2, t2, g2⟩ :=
        ih (L + 2 ^ k) (by omega) d2 (by omega) (greedy_inv_step hinv d1 d2 d3)
      refine ⟨(L, (32 : Int) - (k : Int)) :: rest, by rw [e, e2]; rfl, ?_, ?_⟩
      · simp only [tiles, block_size_sub k hk, true_and]
        exact t2
      · intro c hc
        rcases List.mem_cons.1 hc with rfl | hc
        · refine ⟨k, hk, rfl, d1, h1, d2, d3, ?_⟩
          intro hnd
          rcases hinv k d1 hnd with h | h
          · exact h
          · exfalso; have h5 : R + 1 < L + 2 ^ k := h
            omega
        · exact g2 c hc
    · have : L = R + 1 := by omega
      refine ⟨[], by simp [interval_to_cidrs_v4_loop, hLR], ?_, by simp⟩
      simp only [tiles]; omega

/-- The 32-bit decomposer returns, and its blocks tile `[l, r]` greedily. -/
theorem v4_spec (l r : Nat) (hlr : l ≤ r) (hr : r < 2 ^ 32) :
    ∃ bs, interval_to_cidrs_v4 l r = some bs ∧ tiles 32 l bs (r + 1) ∧
      ∀ c ∈ bs, greedy_block l r c := by
  unfold interval_to_cidrs_v4
  rw [Nat.mod_eq_of_lt (by omega : l < 2 ^ 32), Nat.mod_eq_of_lt hr]
  exact v4_loop_spec l r hr (r - l + 1) l (le_refl _) (by omega) (by omega)
    (greedy_inv_start l r)

/-! ## Consequences of tiling -/

theorem block_size_pos (w : Nat) (p : Int) : 0 < block_size w p := by
  unfold block_size; positivity

theorem tiles_le {w : Nat} : ∀ (bs : List Cidr) (s e : Nat), tiles w s bs e → s ≤ e
  | [], s, e, h => by simp only [tiles] at h; omega
  | c :: rest, s, e, h => by
    simp only [tiles] at h
    have := tiles_le rest _ _ h.2
    omega

theorem tiles_ne_nil {w : Nat} {bs : List Cidr} {s e : Nat} (h : tiles w s bs e)
    (hse : s < e) : bs ≠ [] := by
  rintro rfl
  simp only [tiles] at h
  omega

theorem tiles_bounds {w : Nat} : ∀ (bs : List Cidr) (s e : Nat), tiles w s bs e →
    ∀ c ∈ bs, s ≤ c.1 ∧ c.1 + block_size w c.2 ≤ e
  | [], _, _, _ => by simp
  | c :: rest, s, e, h => by
    simp only [tiles] at h
    intro d hd
    rcases List.mem_cons.1 hd with rfl | hd
    · exact ⟨by omega, tiles_le rest _ _ h.2⟩
    · have := tiles_bounds rest _ _ h.2 d hd
      omega

theorem tiles_pairwise {w : Nat} : ∀ (bs : List Cidr) (s e : Nat), tiles w s bs e →
    List.Pairwise (fun a b => a.1 + block_size w a.2 ≤ b.1) bs
  | [], _, _, _ => List.Pairwise.nil
  | c :: rest, s, e, h => by
    simp only [tiles] at h
    refine List.pairwise_cons.2 ⟨?_, tiles_pairwise rest _ _ h.2⟩
    intro d hd
    exact (tiles_bounds rest _ _ h.2 d hd).1

theorem tiles_cover {w : Nat} : ∀ (bs : List Cidr) (s e : Nat), tiles w s bs e →
    ∀ x, (∃ c ∈ bs, in_block w x c) ↔ (s ≤ x ∧ x < e)
  | [], s, e, h => by
    simp only [tiles] at h
    intro x; simp; omega
  | c :: rest, s, e, h => by
    simp only [tiles] at h
    intro x
    have ih := tiles_cover rest _ _ h.2 x
    have hle := tiles_le rest _ _ h.2
    have hpos := block_size_pos w c.2
    rw [List.exists_mem_cons_iff, ih]
    unfold in_block
    omega

theorem tiles_chain {w : Nat} : ∀ (rest : List Cidr) (c : Cidr) (e : Nat),
    tiles w (c.1 + block_size w c.2) rest e →
    List.Chain (fun a b => b.1 = a.1 + block_size w a.2) c rest
  | [], _, _, _ => List.Chain.nil
  | d :: rest, c, e, h => by
    simp only [tiles] at h
    exact List.Chain.cons h.1 (tiles_chain rest d e h.2)

theorem tiles_chain' {w : Nat} (bs : List Cidr) (s e : Nat) (h : tiles w s bs e) :
    List.Chain' (fun a b => b.1 = a.1 + block_size w a.2) bs := by
  cases bs with
  | nil => exact List.chain'_nil
  | cons c rest =>
    simp only [tiles] at h
    exact tiles_chain rest c e h.2

theorem tiles_last {w : Nat} : ∀ (bs : List Cidr) (s e : Nat), tiles w s bs e →
    ∀ c, bs.getLast? = some c → c.1 + block_size w c.2 = e
  | [], _, _, _ => by simp
  | [c], s, e, h => by
    simp only [tiles] at h
    intro d hd
    simp at hd
    subst hd
    exact h.2
  | c :: d :: rest, s, e, h => by
    simp only [tiles] at h
    intro x hx
    rw [List.getLast?_cons_cons] at hx
    exact tiles_last (d :: rest) _ e (by simp only [tiles]; exact h.2) x hx

theorem greedy_block_valid {l r : Nat} {c : Cidr} (h : greedy_block l r c) :
    valid_cidr 32 c := by
  obtain ⟨k, hk, hp, hd, -⟩ := h
  unfold valid_cidr
  rw [hp, block_size_sub k hk]
  exact ⟨by omega, by omega, hd⟩

/-- C5. Decomposition round-trip, 32-bit family: for `l ≤ r < 2^32` the
decomposer returns a non-empty list of blocks; the first base is `l`, each next
base is the previous base plus the previous block size, the last block ends at
`r`; so bases ascend strictly, blocks are pairwise disjoint and their union is
exactly `[l, r]`. -/
theorem interval_to_cidrs_v4_roundtrip (l r : Nat) (hlr : l ≤ r) (hr : r < 2 ^ 32) :
    ∃ bs, interval_to_cidrs_v4 l r = some bs ∧ bs ≠ [] ∧
      bs.head?.map Prod.fst = some l ∧
      List.Chain' (fun a b => b.1 = a.1 + block_size 32 a.2) bs ∧
      bs.getLast?.map (fun c => c.1 + block_size 32 c.2 - 1) = some r ∧
      List.Pairwise (fun a b => a.1 < b.1) bs ∧
      List.Pairwise (fun a b => ∀ x, ¬ (in_block 32 x a ∧ in_block 32 x b)) bs ∧
      ∀ x, (∃ c ∈ bs, in_block 32 x c) ↔ (l ≤ x ∧ x ≤ r) := by
  obtain ⟨bs, e, t, -⟩ := v4_spec l r hlr hr
  have hne : bs ≠ [] := tiles_ne_nil t (by omega)
  have hpw := tiles_pairwise bs _ _ t
  refine ⟨bs, e, hne, ?_, tiles_chain' bs _ _ t, ?_, ?_, ?_, ?_⟩
  · cases bs with
    | nil => exact absurd rfl hne
    | cons c rest =>
      simp only [tiles] at t
      simp [t.1]
  · rcases hl : bs.getLast? with _ | c
    · exact absurd (List.getLast?_eq_none_iff.1 hl) hne
    · have := tiles_last bs _ _ t c hl
      simp only [Option.map_some']
      congr 1
      omega
  · refine List.Pairwise.imp ?_ hpw
    intro a b hab
    have := block_size_pos 32 a.2
    omega
  · refine List.Pairwise.imp ?_ hpw
    intro a b hab x hx
    unfold in_block at hx
    have := block_size_pos 32 a.2
    omega
  · intro x
    rw [tiles_cover bs _ _ t x]
    omega

theorem interval_to_cidrs_v4_roundtrip_witness :
    (5 ≤ 100 ∧ 100 < 2 ^ 32) ∧
    ∃ bs, interval_to_cidrs_v4 5 100 = some bs ∧ bs ≠ [] ∧
      bs.head?.map Prod.fst = some 5 ∧
      List.Chain' (fun a b => b.1 = a.1 + block_size 32 a.2) bs ∧
      bs.getLast?.map (fun c => c.1 + block_size 32 c.2 - 1) = some 100 ∧
      List.Pairwise (fun a b => a.1 < b.1) bs ∧
      List.Pairwise (fun a b => ∀ x, ¬ (in_block 32 x a ∧ in_block 32 x b)) bs ∧
      ∀ x, (∃ c ∈ bs, in_block 32 x c) ↔ (5 ≤ x ∧ x ≤ 100) :=
  ⟨by decide, interval_to_cidrs_v4_roundtrip 5 100 (by decide) (by decide)⟩

/-- C8. Alignment validity, 32-bit family: for `l ≤ r < 2^32` the decomposer
returns a list, and every block of it has its prefix length within `[0, 32]`
and its base divisible by `2^(32 - prefix)`. -/
theorem interval_to_cidrs_v4_aligned (l r : Nat) (hlr : l ≤ r) (hr : r < 2 ^ 32) :
    ∃ bs, interval_to_cidrs_v4 l r = some bs ∧
      ∀ c ∈ bs, 0 ≤ c.2 ∧ c.2 ≤ 32 ∧ 2 ^ ((32 : Int) - c.2).toNat ∣ c.1 := by
  obtain ⟨bs, e, -, g⟩ := v4_spec l r hlr hr
  exact ⟨bs, e, fun c hc => greedy_block_valid (g c hc)⟩

theorem interval_to_cidrs_v4_aligned_witness :
    (5 ≤ 100 ∧ 100 < 2 ^ 32) ∧
    ∃ bs, interval_to_cidrs_v4 5 100 = some bs ∧
      ∀ c ∈ bs, 0 ≤ c.2 ∧ c.2 ≤ 32 ∧ 2 ^ ((32 : Int) - c.2).toNat ∣ c.1 :=
  ⟨by decide, interval_to_cidrs_v4_aligned 5 100 (by decide) (by decide)⟩

/-! ## Minimality of the greedy decomposition -/

theorem add_le_of_dvd_of_lt {s x y : Nat} (hx : s ∣ x) (hy : s ∣ y) (hlt : x < y) :
    x + s ≤ y := by
  have h1 : s ∣ y - x := Nat.dvd_sub' hy hx
  have h2 := Nat.le_of_dvd (by omega) h1
  omega

/-- A valid block that lies inside `[l, r]` and contains the base of a greedy
block starts at that base. -/
theorem cover_block_base {l r : Nat} {g c : Cidr} (hg : greedy_block l r g)
    (hc : valid_cidr 32 c) (hin : ∀ x, in_block 32 x c → l ≤ x ∧ x ≤ r)
    (hb : in_block 32 g.1 c) : c.1 = g.1 := by
  obtain ⟨k, hk, -, gd, -, -, gr, gl⟩ := hg
  obtain ⟨hp0, hp1, cd⟩ := hc
  have hpos := block_size_pos 32 c.2
  have hlo := hin c.1 (by unfold in_block; omega)
  have hhi := hin (c.1 + block_size 32 c.2 - 1) (by unfold in_block; omega)
  unfold in_block at hb
  unfold block_size at *
  generalize hk2 : ((32 : Nat) - c.2 : Int).toNat = k2 at *
  by_cases hkk : k2 ≤ k
  · by_contra hne
    have hlt : c.1 < g.1 := by omega
    have := add_le_of_dvd_of_lt cd (pow_dvd_of_le_of_dvd hkk gd) hlt
    omega
  · exfalso
    have cd1 : 2 ^ (k + 1) ∣ c.1 := pow_dvd_of_le_of_dvd (by omega) cd
    have ce1 : 2 ^ (k + 1) ∣ c.1 + 2 ^ k2 :=
      Nat.dvd_add cd1 (Nat.pow_dvd_pow 2 (by omega))
    by_cases hd : 2 ^ (k + 1) ∣ g.1
    · have h1 := gr hd
      have h2 := add_le_of_dvd_of_lt hd ce1 (by omega)
      omega
    · have h1 := gl hd
      have hne : c.1 ≠ g.1 := by
        intro h; rw [h] at cd1; exact hd cd1
      have h2 := add_le_of_dvd_of_lt (pow_dvd_of_le_of_dvd (by omega) cd1) gd (by omega)
      omega

/-- C7. Minimality, 32-bit family: for `l ≤ r < 2^32`, every list of valid CIDR
blocks whose ranges have union exactly `[l, r]` has at least as many blocks as
the list `interval_to_cidrs_v4 l r` returns. -/
theorem interval_to_cidrs_v4_minimal (l r : Nat) (hlr : l ≤ r) (hr : r < 2 ^ 32)
    (cover : List Cidr) (hv : ∀ c ∈ cover, valid_cidr 32 c)
    (hu : ∀ x, (∃ c ∈ cover, in_block 32 x c) ↔ (l ≤ x ∧ x ≤ r)) :
    ∃ bs, interval_to_cidrs_v4 l r = some bs ∧ bs.length ≤ cover.length := by
  obtain ⟨bs, e, t, g⟩ := v4_spec l r hlr hr
  refine ⟨bs, e, ?_⟩
  have hnodup : (bs.map Prod.fst).Nodup := by
    rw [List.Nodup, List.pairwise_map]
    refine List.Pairwise.imp ?_ (tiles_pairwise bs _ _ t)
    intro a b hab
    have := block_size_pos 32 a.2
    omega
  have hsub : bs.map Prod.fst ⊆ cover.map Prod.fst := by
    intro b hb
    obtain ⟨gb, hgb, rfl⟩ := List.mem_map.1 hb
    have hgr := g gb hgb
    have hrange : l ≤ gb.1 ∧ gb.1 ≤ r := by
      obtain ⟨k, -, -, -, h1, h2, -⟩ := hgr
      have : 0 < 2 ^ k := by positivity
      omega
    obtain ⟨c, hc, hin⟩ := (hu gb.1).2 hrange
    have := cover_block_base hgr (hv c hc) (fun x hx => (hu x).1 ⟨c, hc, hx⟩) hin
    exact List.mem_map.2 ⟨c, hc, this⟩
  have := (List.subperm_of_subset hnodup hsub).length_le
  simpa using this

theorem interval_to_cidrs_v4_minimal_witness :
    (5 ≤ 8 ∧ 8 < 2 ^ 32 ∧
      (∀ c ∈ [((5 : Nat), (32 : Int)), (6, 31), (6, 32), (8, 32)], valid_cidr 32 c) ∧
      ∀ x, (∃ c ∈ [((5 : Nat), (32 : Int)), (6, 31), (6, 32), (8, 32)], in_block 32 x c) ↔
        (5 ≤ x ∧ x ≤ 8)) ∧
    ∃ bs, interval_to_cidrs_v4 5 8 = some bs ∧
      bs.length ≤ [((5 : Nat), (32 : Int)), (6, 31), (6, 32), (8, 32)].length := by
  have hv : ∀ c ∈ [((5 : Nat), (32 : Int)), (6, 31), (6, 32), (8, 32)], valid_cidr 32 c := by
    intro c hc
    simp only [List.mem_cons, List.mem_singleton, List.not_mem_nil, or_false] at hc
    rcases hc with rfl | rfl | rfl | rfl <;> (unfold valid_cidr block_size; decide)
  have hu : ∀ x, (∃ c ∈ [((5 : Nat), (32 : Int)), (6, 31), (6, 32), (8, 32)],
      in_block 32 x c) ↔ (5 ≤ x ∧ x ≤ 8) := by
    intro x
    simp only [List.exists_mem_cons_iff, List.not_mem_nil, false_and, exists_false, or_false,
      in_block, block_size]
    norm_num
    omega
  exact ⟨⟨by decide, by decide, hv, hu⟩,
    interval_to_cidrs_v4_minimal 5 8 (by decide) (by decide) _ hv hu⟩

/-! ## The 32-bit pipeline -/

/-- Decomposing a list of well-formed 32-bit intervals, each ending before the
next begins, gives blocks that keep this order, stay inside their interval and
cover exactly the intervals. -/
theorem cidr4_of_intervals_spec : ∀ (N : List Interval128),
    (∀ iv ∈ N, iv.l ≤ iv.r ∧ iv.r < 2 ^ 32) →
    List.Pairwise (fun a b : Interval128 => a.r < b.l) N →
    ∃ bs, cidr4_of_intervals N = some bs ∧
      List.Pairwise (fun a b => a.1 + block_size 32 a.2 ≤ b.1) bs ∧
      (∀ c ∈ bs, ∃ iv ∈ N, iv.l ≤ c.1 ∧ c.1 + block_size 32 c.2 ≤ iv.r + 1) ∧
      ∀ x, (∃ c ∈ bs, in_block 32 x c) ↔ ∃ iv ∈ N, in_interval x iv
  | [], _, _ => ⟨[], rfl, List.Pairwise.nil, by simp, by simp⟩
  | it :: rest, hN, hp => by
    obtain ⟨hit1, hit2⟩ := hN it (List.mem_cons_self _ _)
    have hp' := List.pairwise_cons.1 hp
    obtain ⟨more, e2, p2, b2, u2⟩ :=
      cidr4_of_intervals_spec rest (fun iv h => hN iv (List.mem_cons_of_mem _ h)) hp'.2
    obtain ⟨part, e1, t1, -⟩ := v4_spec it.l it.r hit1 hit2
    have hl : it.l % 2 ^ 32 = it.l := Nat.mod_eq_of_lt (by omega)
    have hr : it.r % 2 ^ 32 = it.r := Nat.mod_eq_of_lt hit2
    have hb1 := tiles_bounds part _ _ t1
    refine ⟨part ++ more, by simp only [cidr4_of_intervals, hl, hr, e1, e2], ?_, ?_, ?_⟩
    · refine List.pairwise_append.2 ⟨tiles_pairwise part _ _ t1, p2, ?_⟩
      intro a ha b hb
      obtain ⟨iv, hiv, h1, -⟩ := b2 b hb
      have := hp'.1 iv hiv
      have := (hb1 a ha).2
      omega
    · intro c hc
      rcases List.mem_append.1 hc with h | h
      · exact ⟨it, List.mem_cons_self _ _, hb1 c h⟩
      · obtain ⟨iv, hiv, h1⟩ := b2 c h
        exact ⟨iv, List.mem_cons_of_mem _ hiv, h1⟩
    · intro x
      have hc := tiles_cover part _ _ t1 x
      rw [List.exists_mem_cons_iff]
      constructor
      · rintro ⟨c, hc1, hc2⟩
        rcases List.mem_append.1 hc1 with h | h
        · left
          have := hc.1 ⟨c, h, hc2⟩
          unfold in_interval; omega
        · right; exact (u2 x).1 ⟨c, h, hc2⟩
      · rintro (h | h)
        · unfold in_interval at h
          obtain ⟨c, h1, h2⟩ := hc.2 (by omega)
          exact ⟨c, List.mem_append_left _ h1, h2⟩
        · obtain ⟨c, h1, h2⟩ := (u2 x).2 h
          exact ⟨c, List.mem_append_right _ h1, h2⟩

/-- C1. The 32-bit pipeline of `main`: for every list of intervals with
`low ≤ high < 2^32`, decomposing the normalised intervals one after the other
returns a list of blocks whose bases ascend strictly, whose ranges are pairwise
disjoint, and whose union of addresses is the union of the input intervals; an
empty input gives the empty list. -/
theorem main_cidr4_exact_cover (S : List Interval128)
    (hS : ∀ iv ∈ S, iv.l ≤ iv.r ∧ iv.r < 2 ^ 32) :
    ∃ bs, main_cidr4 S = some bs ∧
      List.Pairwise (fun a b => a.1 < b.1) bs ∧
      List.Pairwise (fun a b => ∀ x, ¬ (in_block 32 x a ∧ in_block 32 x b)) bs ∧
      (∀ x, (∃ c ∈ bs, in_block 32 x c) ↔ ∃ iv ∈ S, in_interval x iv) ∧
      (S = [] → bs = []) := by
  have hwf : ∀ iv ∈ S, wf_interval iv := by
    intro iv h
    have := hS iv h
    unfold wf_interval; omega
  have hNwf := union_normalize_wf S hwf
  have hN : ∀ iv ∈ union_normalize S, iv.l ≤ iv.r ∧ iv.r < 2 ^ 32 := by
    intro iv h
    have h1 := (hNwf iv h).1
    obtain ⟨z, hz, hin⟩ := (union_normalize_union S hwf iv.r).1
      ⟨iv, h, by unfold in_interval; omega⟩
    have := hS z hz
    unfold in_interval at hin
    exact ⟨h1, by omega⟩
  have hpw : List.Pairwise (fun a b : Interval128 => a.r < b.l) (union_normalize S) := by
    refine List.Pairwise.imp ?_ (union_normalize_pairwise_gap S hwf)
    intro a b hab
    unfold gap_before at hab
    omega
  obtain ⟨bs, e, p, -, u⟩ := cidr4_of_intervals_spec (union_normalize S) hN hpw
  refine ⟨bs, e, ?_, ?_, ?_, ?_⟩
  · refine List.Pairwise.imp ?_ p
    intro a b hab
    have := block_size_pos 32 a.2
    omega
  · refine List.Pairwise.imp ?_ p
    intro a b hab x hx
    unfold in_block at hx
    have := block_size_pos 32 a.2
    omega
  · intro x
    rw [u x, union_normalize_union S hwf x]
  · rintro rfl
    have : cidr4_of_intervals (union_normalize []) = some [] := rfl
    rw [this] at e
    exact (Option.some.inj e).symm

theorem main_cidr4_exact_cover_witness :
    (∀ iv ∈ [(⟨10, 20⟩ : Interval128), ⟨0, 5⟩, ⟨6, 7⟩], iv.l ≤ iv.r ∧ iv.r < 2 ^ 32) ∧
    ∃ bs, main_cidr4 [⟨10, 20⟩, ⟨0, 5⟩, ⟨6, 7⟩] = some bs ∧
      List.Pairwise (fun a b => a.1 < b.1) bs ∧
      List.Pairwise (fun a b => ∀ x, ¬ (in_block 32 x a ∧ in_block 32 x b)) bs ∧
      (∀ x, (∃ c ∈ bs, in_block 32 x c) ↔
        ∃ iv ∈ [(⟨10, 20⟩ : Interval128), ⟨0, 5⟩, ⟨6, 7⟩], in_interval x iv) ∧
      ([(⟨10, 20⟩ : Interval128), ⟨0, 5⟩, ⟨6, 7⟩] = [] → bs = []) :=
  ⟨by simp, main_cidr4_exact_cover [⟨10, 20⟩, ⟨0, 5⟩, ⟨6, 7⟩] (by simp)⟩

/-! ## Masks of the block parser -/

theorem str_find_append (c : Char) : ∀ (ip ps : List Char), c ∉ ip →
    str_find c (ip ++ c :: ps) = some ip.length
  | [], ps, _ => by simp [str_find]
  | a :: ip, ps, h => by
    have h1 : a ≠ c := fun e => h (e ▸ List.mem_cons_self _ _)
    have h2 : c ∉ ip := fun e => h (List.mem_cons_of_mem _ e)
    simp [str_find, h1, str_find_append c ip ps h2]

/-- All ones shifted left by `s` within `w` bits is `2^w - 2^s`. -/
theorem ones_shl_mod (w s : Nat) (hs : s ≤ w) :
    ((2 ^ w - 1) <<< s) % 2 ^ w = 2 ^ w - 2 ^ s := by
  have h1 : 2 ^ s ≤ 2 ^ w := Nat.pow_le_pow_right (by norm_num) hs
  have h2 : 0 < 2 ^ s := by positivity
  have h3 : (2 ^ w - 1) * 2 ^ s = (2 ^ w - 2 ^ s) + (2 ^ s - 1) * 2 ^ w := by
    obtain ⟨a, ha⟩ := Nat.exists_eq_add_of_le h1
    obtain ⟨b, hb⟩ := Nat.exists_eq_add_of_le h2
    rw [ha, hb]
    simp only [Nat.add_sub_cancel_left, Nat.succ_eq_add_one, zero_add]
    have : 1 + b + a - 1 = b + a := by omega
    rw [this]
    ring
  rw [Nat.shiftLeft_eq, h3, Nat.add_mul_mod_self_right, Nat.mod_eq_of_lt]
  omega

/-- Clearing the low `s` bits of a `w`-bit value with the network mask. -/
theorem and_mask_eq (w s x : Nat) (hx : x < 2 ^ w) :
    x &&& (((2 ^ w - 1) <<< s) % 2 ^ w) = x - x % 2 ^ s := by
  have hr : x - x % 2 ^ s = (x >>> s) <<< s := by
    rw [Nat.shiftLeft_eq, Nat.shiftRight_eq_div_pow]
    have := Nat.div_add_mod x (2 ^ s)
    rw [mul_comm] at this
    omega
  rw [hr]
  apply Nat.eq_of_testBit_eq
  intro i
  rw [Nat.testBit_and, Nat.testBit_mod_two_pow, Nat.testBit_shiftLeft, Nat.testBit_shiftLeft,
    Nat.testBit_two_pow_sub_one, Nat.testBit_shiftRight]
  by_cases h1 : i < w
  · by_cases h2 : i ≥ s
    · have h3 : i - s < w := by omega
      have h4 : s + (i - s) = i := by omega
      simp [h1, h2, h3, h4]
    · simp [h1, h2]
  · have : x.testBit i = false :=
      Nat.testBit_lt_two_pow (lt_of_lt_of_le hx (Nat.pow_le_pow_right (by norm_num) (by omega)))
    simp only [h1, this, decide_False, Bool.false_and, Bool.and_false]
    by_cases h2 : i ≥ s
    · have h4 : s + (i - s) = i := by omega
      simp [h4, this]
    · simp [h2]

/-- Setting the low `s` bits of a multiple of `2^s`. -/
theorem or_low_ones (s net : Nat) (h : 2 ^ s ∣ net) :
    net ||| (2 ^ s - 1) = net + 2 ^ s - 1 := by
  obtain ⟨q, rfl⟩ := h
  have h2 : 0 < 2 ^ s := by positivity
  rw [← Nat.mul_add_lt_is_or (by omega : 2 ^ s - 1 < 2 ^ s) q]
  omega

theorem sub_mod_dvd (x s : Nat) : 2 ^ s ∣ x - x % 2 ^ s := by
  have := Nat.div_add_mod x (2 ^ s)
  exact ⟨x / 2 ^ s, by omega⟩

/-- The interval the parsers compute from the address value `x` and the shift
`s = w - prefix`, once the mask is `2^w - 2^s`. -/
theorem mask_interval (w s x : Nat) (hs : s ≤ w) (hx : x < 2 ^ w) :
    x &&& (2 ^ w - 2 ^ s) = x - x % 2 ^ s ∧
    (x &&& (2 ^ w - 2 ^ s)) ||| ((2 ^ w - 1) - (2 ^ w - 2 ^ s)) =
      x - x % 2 ^ s + 2 ^ s - 1 := by
  have h1 : 2 ^ s ≤ 2 ^ w := Nat.pow_le_pow_right (by norm_num) hs
  have h2 : 0 < 2 ^ s := by positivity
  have e := and_mask_eq w s x hx
  rw [ones_shl_mod w s hs] at e
  refine ⟨e, ?_⟩
  rw [e]
  have : (2 ^ w - 1) - (2 ^ w - 2 ^ s) = 2 ^ s - 1 := by omega
  rw [this]
  exact or_low_ones s _ (sub_mod_dvd x s)

theorem bytes_fold_lt (b : List Nat) : ∀ v, v < 2 ^ 128 →
    b.foldl (fun v bi => ((v <<< 8) % 2 ^ 128) ||| (bi % 256)) v < 2 ^ 128 := by
  induction b with
  | nil => intro v hv; exact hv
  | cons a t ih =>
    intro v _
    apply ih
    apply Nat.or_lt_two_pow
    · exact Nat.mod_lt _ (by positivity)
    · have : a % 256 < 256 := Nat.mod_lt _ (by norm_num)
      have : (256 : Nat) ≤ 2 ^ 128 := by norm_num
      omega

theorem bytes_to_u128_be_lt (b : List Nat) : bytes_to_u128_be b < 2 ^ 128 :=
  bytes_fold_lt _ 0 (by positivity)

theorem take_drop_slash (ip ps : List Char) :
    (ip ++ '/' :: ps).take ip.length = ip ∧ (ip ++ '/' :: ps).drop (ip.length + 1) = ps := by
  constructor
  · simp
  · have : ip ++ '/' :: ps = (ip ++ ['/']) ++ ps := by simp
    rw [this, List.drop_append_of_le_length (by simp)]
    simp

theorem mask32_eq (p : Int) (h0 : 0 ≤ p) (h32 : p ≤ 32) :
    (if p = 0 then some 0 else shl_checked 32 0xFFFFFFFF (32 - p)) =
      some (2 ^ 32 - 2 ^ ((32 : Int) - p).toNat) := by
  by_cases hp : p = 0
  · subst hp; simp
  · rw [if_neg hp]
    unfold shl_checked
    rw [if_pos (by omega)]
    have : (0xFFFFFFFF : Nat) = 2 ^ 32 - 1 := by norm_num
    rw [this, ones_shl_mod 32 _ (by omega)]

theorem mask128_eq (p : Int) (h0 : 0 ≤ p) (h128 : p ≤ 128) :
    (if p = 0 then some 0 else if p = 128 then some U128_MAX
      else shl_checked 128 U128_MAX (128 - p)) =
      some (2 ^ 128 - 2 ^ ((128 : Int) - p).toNat) := by
  by_cases hp : p = 0
  · subst hp; simp
  · rw [if_neg hp]
    by_cases hq : p = 128
    · subst hq; simp [U128_MAX]
    · rw [if_neg hq]
      unfold shl_checked U128_MAX
      rw [if_pos (by omega), ones_shl_mod 128 _ (by omega)]

theorem parse_cidr_ipv4_eq (pton4 : List Char → Option Nat) (ip ps : List Char) (p : Int)
    (x : Nat) (hslash : '/' ∉ ip) (hps : stoi ps = some p) (h0 : 0 ≤ p) (h32 : p ≤ 32)
    (hx : pton4 ip = some x) (hlt : x < 2 ^ 32) :
    parse_cidr_ipv4 pton4 (ip ++ '/' :: ps) =
      some ⟨x - x % 2 ^ ((32 : Int) - p).toNat,
        x - x % 2 ^ ((32 : Int) - p).toNat + 2 ^ ((32 : Int) - p).toNat - 1⟩ := by
  obtain ⟨m1, m2⟩ := mask_interval 32 ((32 : Int) - p).toNat x (by omega) hlt
  have hr : ¬ (p < 0 ∨ p > 32) := by omega
  have hff : (0xFFFFFFFF : Nat) = 2 ^ 32 - 1 := by norm_num
  unfold parse_cidr_ipv4
  simp only [str_find_append '/' ip ps hslash, (take_drop_slash ip ps).1,
    (take_drop_slash ip ps).2, hps, if_neg hr, hx, mask32_eq p h0 h32,
    Nat.mod_eq_of_lt hlt]
  rw [hff, m2, m1]

theorem parse_cidr_ipv6_eq (pton6 : List Char → Option (List Nat)) (ip ps : List Char)
    (p : Int) (a6 : List Nat) (hslash : '/' ∉ ip) (hps : stoi ps = some p) (h0 : 0 ≤ p)
    (h128 : p ≤ 128) (hx : pton6 ip = some a6) :
    parse_cidr_ipv6 pton6 (ip ++ '/' :: ps) =
      some ⟨bytes_to_u128_be a6 - bytes_to_u128_be a6 % 2 ^ ((128 : Int) - p).toNat,
        bytes_to_u128_be a6 - bytes_to_u128_be a6 % 2 ^ ((128 : Int) - p).toNat
          + 2 ^ ((128 : Int) - p).toNat - 1⟩ := by
  obtain ⟨m1, m2⟩ := mask_interval 128 ((128 : Int) - p).toNat (bytes_to_u128_be a6)
    (by omega) (bytes_to_u128_be_lt a6)
  have hr : ¬ (p < 0 ∨ p > 128) := by omega
  unfold parse_cidr_ipv6
  simp only [str_find_append '/' ip ps hslash, (take_drop_slash ip ps).1,
    (take_drop_slash ip ps).2, hps, if_neg hr, hx, mask128_eq p h0 h128]
  unfold U128_MAX
  rw [m2, m1]

/-- C10. Parser interval formula, both families. On a line `ip/ps` whose
prefix text reads as the integer `p ≥ 0`: if `p ≤ 32` and the address text
parses to the 32-bit value `x`, `parse_cidr_ipv4` succeeds with
`low = x - x mod 2^(32-p)` and `high = low + 2^(32-p) - 1`; if `p ≤ 128` and
the address text parses to bytes of value `y`, `parse_cidr_ipv6` succeeds with
the same formula for width 128. In both, `low ≤ address ≤ high` and
`2^(W-p)` divides `low`. Success includes that every shift the parser
evaluates is by less than the width (the shift model fails otherwise). -/
theorem parse_cidr_interval_formula (pton4 : List Char → Option Nat)
    (pton6 : List Char → Option (List Nat)) (ip ps : List Char) (p : Int)
    (x : Nat) (a6 : List Nat)
    (hslash : '/' ∉ ip) (hps : stoi ps = some p) (h0 : 0 ≤ p) :
    (p ≤ 32 → pton4 ip = some x → x < 2 ^ 32 →
      ∃ lo hi, parse_cidr_ipv4 pton4 (ip ++ '/' :: ps) = some ⟨lo, hi⟩ ∧
        lo = x - x % 2 ^ ((32 : Int) - p).toNat ∧
        hi = lo + 2 ^ ((32 : Int) - p).toNat - 1 ∧
        lo ≤ x ∧ x ≤ hi ∧ 2 ^ ((32 : Int) - p).toNat ∣ lo) ∧
    (p ≤ 128 → pton6 ip = some a6 →
      ∃ lo hi, parse_cidr_ipv6 pton6 (ip ++ '/' :: ps) = some ⟨lo, hi⟩ ∧
        lo = bytes_to_u128_be a6 - bytes_to_u128_be a6 % 2 ^ ((128 : Int) - p).toNat ∧
        hi = lo + 2 ^ ((128 : Int) - p).toNat - 1 ∧
        lo ≤ bytes_to_u128_be a6 ∧ bytes_to_u128_be a6 ≤ hi ∧
        2 ^ ((128 : Int) - p).toNat ∣ lo) := by
  constructor
  · intro h32 hx hlt
    refine ⟨_, _, parse_cidr_ipv4_eq pton4 ip ps p x hslash hps h0 h32 hx hlt, rfl, rfl,
      Nat.sub_le _ _, ?_, sub_mod_dvd x _⟩
    have := Nat.mod_lt x (show 0 < 2 ^ ((32 : Int) - p).toNat by positivity)
    have := Nat.mod_le x (2 ^ ((32 : Int) - p).toNat)
    omega
  · intro h128 hx
    refine ⟨_, _, parse_cidr_ipv6_eq pton6 ip ps p a6 hslash hps h0 h128 hx, rfl, rfl,
      Nat.sub_le _ _, ?_, sub_mod_dvd _ _⟩
    have := Nat.mod_lt (bytes_to_u128_be a6)
      (show 0 < 2 ^ ((128 : Int) - p).toNat by positivity)
    have := Nat.mod_le (bytes_to_u128_be a6) (2 ^ ((128 : Int) - p).toNat)
    omega

theorem parse_cidr_interval_formula_witness :
    ('/' ∉ ['1', '0', '.', '1', '.', '2', '.', '3'] ∧ stoi ['8'] = some 8 ∧ (0 : Int) ≤ 8) ∧
    (∃ lo hi, parse_cidr_ipv4 (fun _ => some 167838211)
        (['1', '0', '.', '1', '.', '2', '.', '3'] ++ '/' :: ['8']) = some ⟨lo, hi⟩ ∧
      lo = 167838211 - 167838211 % 2 ^ ((32 : Int) - 8).toNat ∧
      hi = lo + 2 ^ ((32 : Int) - 8).toNat - 1 ∧
      lo ≤ 167838211 ∧ 167838211 ≤ hi ∧ 2 ^ ((32 : Int) - 8).toNat ∣ lo) ∧
    (∃ lo hi, parse_cidr_ipv6 (fun _ => some [32, 1, 13, 184, 0, 0, 0, 0, 0, 0, 0, 0, 0, 0, 0, 1])
        (['1', '0', '.', '1', '.', '2', '.', '3'] ++ '/' :: ['8']) = some ⟨lo, hi⟩ ∧
      lo = bytes_to_u128_be [32, 1, 13, 184, 0, 0, 0, 0, 0, 0, 0, 0, 0, 0, 0, 1]
        - bytes_to_u128_be [32, 1, 13, 184, 0, 0, 0, 0, 0, 0, 0, 0, 0, 0, 0, 1]
          % 2 ^ ((128 : Int) - 8).toNat ∧
      hi = lo + 2 ^ ((128 : Int) - 8).toNat - 1 ∧
      lo ≤ bytes_to_u128_be [32, 1, 13, 184, 0, 0, 0, 0, 0, 0, 0, 0, 0, 0, 0, 1] ∧
      bytes_to_u128_be [32, 1, 13, 184, 0, 0, 0, 0, 0, 0, 0, 0, 0, 0, 0, 1] ≤ hi ∧
      2 ^ ((128 : Int) - 8).toNat ∣ lo) :=
  ⟨⟨by decide, by decide, by decide⟩,
    (parse_cidr_interval_formula (fun _ => some 167838211)
      (fun _ => some [32, 1, 13, 184, 0, 0, 0, 0, 0, 0, 0, 0, 0, 0, 0, 1])
      ['1', '0', '.', '1', '.', '2', '.', '3'] ['8'] 8 167838211
      [32, 1, 13, 184, 0, 0, 0, 0, 0, 0, 0, 0, 0, 0, 0, 1]
      (by decide) (by decide) (by decide)).1 (by decide) rfl (by decide),
    (parse_cidr_interval_formula (fun _ => some 167838211)
      (fun _ => some [32, 1, 13, 184, 0, 0, 0, 0, 0, 0, 0, 0, 0, 0, 0, 1])
      ['1', '0', '.', '1', '.', '2', '.', '3'] ['8'] 8 167838211
      [32, 1, 13, 184, 0, 0, 0, 0, 0, 0, 0, 0, 0, 0, 0, 1]
      (by decide) (by decide) (by decide)).2 (by decide) rfl⟩

/-! ## The 128-bit decomposer at the edges of the address space -/

/-- From `l = 0` the 128-bit loop computes `max_align = (1 << 127) << 1`, which
is `0` in 128-bit arithmetic, so `block` is `0` and `msb(block)` throws: every
interval that starts at `0` and is not the full range makes the decomposer
fail. -/
theorem v6_from_zero_faults (r : Nat) (hr : r < 2 ^ 128 - 1) :
    interval_to_cidrs_v6 0 r = .error .bit_scan_of_zero := by
  have h1 : ¬ ((0 : Nat) = 0 ∧ r = U128_MAX) := by unfold U128_MAX; omega
  have h2 : r - 0 + 1 = r + 1 := by omega
  have hrem : (r + 2 ^ 128 - 0 + 1) % 2 ^ 128 = r + 1 := by
    have : r + 2 ^ 128 - 0 + 1 = (r + 1) + 2 ^ 128 := by omega
    rw [this, Nat.add_mod_right, Nat.mod_eq_of_lt (by omega)]
  have hal : (((1 <<< 127) % 2 ^ 128) <<< 1) % 2 ^ 128 = 0 := by decide
  have hmsb : msb (r + 1) = .ok (msb_scan 128 (r + 1)) := by
    unfold msb; rw [if_neg (Nat.succ_ne_zero r)]
  have hmsb0 : msb 0 = .error .bit_scan_of_zero := rfl
  unfold interval_to_cidrs_v6
  rw [if_neg h1, h2, interval_to_cidrs_v6_loop, if_pos (Nat.zero_le r), if_pos rfl]
  rw [hrem]
  simp only []
  unfold floor_pow2
  rw [hmsb]
  simp only []
  rw [if_pos trivial, hal]
  by_cases hz : 0 < (1 <<< msb_scan 128 (r + 1)) % 2 ^ 128
  · rw [if_pos hz, hmsb0]
  · rw [if_neg hz]
    have : (1 <<< msb_scan 128 (r + 1)) % 2 ^ 128 = 0 := by omega
    rw [this, hmsb0]

/-- C6. Failing input for the 128-bit round-trip: on the one-address interval
`[0, 0]` (and on `[0, 5]`) the decomposer does not return a block list; it
applies `msb` to a zero block size and throws. -/
theorem interval_to_cidrs_v6_zero_start_fails :
    interval_to_cidrs_v6 0 0 = .error .bit_scan_of_zero ∧
    interval_to_cidrs_v6 0 5 = .error .bit_scan_of_zero :=
  ⟨by rfl, by rfl⟩

/-- C9. Full-space special case, both families: the 128-bit decomposer on
`[0, 2^128 - 1]` and the 32-bit decomposer on `[0, 2^32 - 1]` each return
exactly the one-element list `[(0, 0)]`. -/
theorem full_space_single_block :
    interval_to_cidrs_v6 0 (2 ^ 128 - 1) = .ok [((0 : Nat), (0 : Int))] ∧
    interval_to_cidrs_v4 0 (2 ^ 32 - 1) = some [((0 : Nat), (0 : Int))] :=
  ⟨by rfl, by decide⟩

/-! ## Greedy choice and order independence -/

/-- C19. Greedy choice, 32-bit family: for `l ≤ r < 2^32` the decomposer
returns a list, and every block `(b, p)` of it fits, `b + 2^(32-p) - 1 ≤ r`,
while for `p > 0` the next larger block `(b, p-1)` is invalid: `b` is not
divisible by `2^(33-p)` or `b + 2^(33-p) - 1 > r`. -/
theorem interval_to_cidrs_v4_greedy_choice (l r : Nat) (hlr : l ≤ r) (hr : r < 2 ^ 32) :
    ∃ bs, interval_to_cidrs_v4 l r = some bs ∧
      ∀ c ∈ bs, c.1 + 2 ^ ((32 : Int) - c.2).toNat - 1 ≤ r ∧
        (0 < c.2 →
          ¬ 2 ^ ((33 : Int) - c.2).toNat ∣ c.1 ∨ c.1 + 2 ^ ((33 : Int) - c.2).toNat - 1 > r) := by
  obtain ⟨bs, e, -, g⟩ := v4_spec l r hlr hr
  refine ⟨bs, e, ?_⟩
  intro c hc
  obtain ⟨k, hk, hp, -, -, h1, h2, -⟩ := g c hc
  have e1 : ((32 : Int) - c.2).toNat = k := by omega
  have e2 : ((33 : Int) - c.2).toNat = k + 1 := by omega
  rw [e1, e2]
  refine ⟨by omega, ?_⟩
  intro _
  by_cases hd : 2 ^ (k + 1) ∣ c.1
  · right
    have := h2 hd
    omega
  · left; exact hd

theorem interval_to_cidrs_v4_greedy_choice_witness :
    (5 ≤ 100 ∧ 100 < 2 ^ 32) ∧
    ∃ bs, interval_to_cidrs_v4 5 100 = some bs ∧
      ∀ c ∈ bs, c.1 + 2 ^ ((32 : Int) - c.2).toNat - 1 ≤ 100 ∧
        (0 < c.2 →
          ¬ 2 ^ ((33 : Int) - c.2).toNat ∣ c.1 ∨
            c.1 + 2 ^ ((33 : Int) - c.2).toNat - 1 > 100) :=
  ⟨by decide, interval_to_cidrs_v4_greedy_choice 5 100 (by decide) (by decide)⟩

/-! ## Order independence -/

theorem iv_le_antisymm_eq {a b : Interval128} (h1 : iv_le a b) (h2 : iv_le b a) : a = b := by
  rw [iv_le_iff] at h1 h2
  cases a; cases b
  simp only [Interval128.mk.injEq] at *
  omega

instance iv_le_antisymm : IsAntisymm Interval128 iv_le :=
  ⟨fun _ _ h1 h2 => iv_le_antisymm_eq h1 h2⟩

theorem insertionSort_perm_eq {S T : List Interval128} (h : S.Perm T) :
    List.insertionSort iv_le S = List.insertionSort iv_le T := by
  apply List.eq_of_perm_of_sorted _ (List.sorted_insertionSort iv_le S)
    (List.sorted_insertionSort iv_le T)
  exact ((List.perm_insertionSort iv_le S).trans h).trans (List.perm_insertionSort iv_le T).symm

/-- C15. Order independence: `union_normalize` returns the same list for a list
of intervals and for every permutation of it. -/
theorem union_normalize_perm (S T : List Interval128) (h : T.Perm S) :
    union_normalize T = union_normalize S := by
  unfold union_normalize
  rw [insertionSort_perm_eq h]
  have : T.isEmpty = S.isEmpty := by
    cases S <;> cases T <;> simp_all
  rw [this]

theorem union_normalize_perm_witness :
    List.Perm [(⟨5, 9⟩ : Interval128), ⟨1, 3⟩, ⟨4, 4⟩] [⟨4, 4⟩, ⟨5, 9⟩, ⟨1, 3⟩] ∧
    union_normalize [⟨5, 9⟩, ⟨1, 3⟩, ⟨4, 4⟩] = union_normalize [⟨4, 4⟩, ⟨5, 9⟩, ⟨1, 3⟩] :=
  ⟨by decide, union_normalize_perm _ _ (by decide)⟩

/-! ## Rejected prefix lengths -/

theorem digit_not_space {c : Char} (h : c.isDigit = true) :
    is_space c = false ∧ c ≠ '-' ∧ c ≠ '+' := by
  unfold Char.isDigit at h
  simp only [Bool.and_eq_true, decide_eq_true_eq] at h
  obtain ⟨h1, h2⟩ := h
  have h3 : 48 ≤ c.toNat := h1
  refine ⟨?_, ?_, ?_⟩
  · unfold is_space
    simp only [Bool.or_eq_false_iff, Bool.and_eq_false_iff, decide_eq_false_iff_not]
    omega
  · rintro rfl; revert h3; decide
  · rintro rfl; revert h3; decide

theorem str_find_none (c : Char) : ∀ (s : List Char), c ∉ s → str_find c s = none
  | [], _ => rfl
  | a :: s, h => by
    have h1 : a ≠ c := fun e => h (e ▸ List.mem_cons_self _ _)
    have h2 : c ∉ s := fun e => h (List.mem_cons_of_mem _ e)
    simp [str_find, h1, str_find_none c s h2]

theorem takeWhile_digits (ds : List Char) (hd : ∀ c ∈ ds, c.isDigit = true) :
    ds.takeWhile Char.isDigit = ds :=
  List.takeWhile_eq_self_iff.2 hd

theorem dropWhile_space_digits (ds : List Char) (hd : ∀ c ∈ ds, c.isDigit = true) :
    ds.dropWhile is_space = ds := by
  cases ds with
  | nil => rfl
  | cons c t =>
    have := (digit_not_space (hd c (List.mem_cons_self _ _))).1
    simp [List.dropWhile, this]

theorem head_digits (ds : List Char) (hd : ∀ c ∈ ds, c.isDigit = true) :
    (ds.head? == some '-') = false ∧ (ds.head? == some '+') = false := by
  cases ds with
  | nil => exact ⟨rfl, rfl⟩
  | cons c t =>
    have := digit_not_space (hd c (List.mem_cons_self _ _))
    simp [this.2.1, this.2.2]

/-- What `stoi` returns on a text that is a base-10 integer. -/
theorem stoi_of_denotes {ps : List Char} {n : Int} (h : denotes_int ps n) :
    stoi ps = if n < -(2 : Int) ^ 31 ∨ n > (2 : Int) ^ 31 - 1 then none else some n := by
  obtain ⟨ds, hne, hd, h⟩ := h
  have htw := takeWhile_digits ds hd
  have hemp : ds.isEmpty = false := by
    cases ds with
    | nil => exact absurd rfl hne
    | cons c t => rfl
  rcases h with ⟨rfl, rfl⟩ | ⟨rfl, rfl⟩ | ⟨rfl, rfl⟩
  · unfold stoi
    simp only [dropWhile_space_digits ps hd, (head_digits ps hd).1, (head_digits ps hd).2,
      Bool.or_self, Bool.false_eq_true, if_false, htw, hemp, digits_value]
  · unfold stoi
    have hs : ('+' :: ds).dropWhile is_space = '+' :: ds := by
      simp [List.dropWhile, show is_space '+' = false by decide]
    have h1 : ((some '+' : Option Char) == some '-') = false := by decide
    have h2 : ((some '+' : Option Char) == some '+') = true := by decide
    simp only [hs, List.head?_cons, List.tail_cons, h1, h2, Bool.or_true, if_true,
      Bool.false_eq_true, if_false, htw, hemp, digits_value]
  · unfold stoi
    have hs : ('-' :: ds).dropWhile is_space = '-' :: ds := by
      simp [List.dropWhile, show is_space '-' = false by decide]
    have h1 : ((some '-' : Option Char) == some '-') = true := by decide
    simp only [hs, List.head?_cons, List.tail_cons, h1, Bool.true_or, if_true,
      Bool.false_eq_true, if_false, htw, hemp, digits_value]

theorem parse_cidr_ipv4_of_stoi_none (pton4 : List Char → Option Nat) (ip ps : List Char)
    (hslash : '/' ∉ ip) (h : stoi ps = none) :
    parse_cidr_ipv4 pton4 (ip ++ '/' :: ps) = none := by
  unfold parse_cidr_ipv4
  simp only [str_find_append '/' ip ps hslash, (take_drop_slash ip ps).2, h]

theorem parse_cidr_ipv6_of_stoi_none (pton6 : List Char → Option (List Nat))
    (ip ps : List Char) (hslash : '/' ∉ ip) (h : stoi ps = none) :
    parse_cidr_ipv6 pton6 (ip ++ '/' :: ps) = none := by
  unfold parse_cidr_ipv6
  simp only [str_find_append '/' ip ps hslash, (take_drop_slash ip ps).2, h]

theorem parse_cidr_ipv4_of_stoi_range (pton4 : List Char → Option Nat) (ip ps : List Char)
    (n : Int) (hslash : '/' ∉ ip) (h : stoi ps = some n) (hn : n < 0 ∨ n > 32) :
    parse_cidr_ipv4 pton4 (ip ++ '/' :: ps) = none := by
  unfold parse_cidr_ipv4
  simp only [str_find_append '/' ip ps hslash, (take_drop_slash ip ps).2, h, if_pos hn]

theorem parse_cidr_ipv6_of_stoi_range (pton6 : List Char → Option (List Nat))
    (ip ps : List Char) (n : Int) (hslash : '/' ∉ ip) (h : stoi ps = some n)
    (hn : n < 0 ∨ n > 128) :
    parse_cidr_ipv6 pton6 (ip ++ '/' :: ps) = none := by
  unfold parse_cidr_ipv6
  simp only [str_find_append '/' ip ps hslash, (take_drop_slash ip ps).2, h, if_pos hn]

/-- C11. Prefix range rejection: a line without `/` is rejected by both
parsers; a line `ip/ps` whose `ps` is a base-10 integer `n` is rejected by
`parse_cidr_ipv4` when `n` is outside `[0, 32]` and by `parse_cidr_ipv6` when
`n` is outside `[0, 128]`, negative values and values beyond `int` included.
Rejection is the result `none`: no interval is produced. -/
theorem parse_cidr_rejects_bad_prefix_range (pton4 : List Char → Option Nat)
    (pton6 : List Char → Option (List Nat)) (line ip ps : List Char) (n : Int)
    (hline : '/' ∉ line) (hslash : '/' ∉ ip) (hden : denotes_int ps n) :
    (parse_cidr_ipv4 pton4 line = none ∧ parse_cidr_ipv6 pton6 line = none) ∧
    (n < 0 ∨ 32 < n → parse_cidr_ipv4 pton4 (ip ++ '/' :: ps) = none) ∧
    (n < 0 ∨ 128 < n → parse_cidr_ipv6 pton6 (ip ++ '/' :: ps) = none) := by
  have hst := stoi_of_denotes hden
  refine ⟨⟨?_, ?_⟩, ?_, ?_⟩
  · unfold parse_cidr_ipv4; rw [str_find_none '/' line hline]
  · unfold parse_cidr_ipv6; rw [str_find_none '/' line hline]
  · intro hn
    by_cases hr : n < -(2 : Int) ^ 31 ∨ n > (2 : Int) ^ 31 - 1
    · rw [if_pos hr] at hst
      exact parse_cidr_ipv4_of_stoi_none pton4 ip ps hslash hst
    · rw [if_neg hr] at hst
      exact parse_cidr_ipv4_of_stoi_range pton4 ip ps n hslash hst (by omega)
  · intro hn
    by_cases hr : n < -(2 : Int) ^ 31 ∨ n > (2 : Int) ^ 31 - 1
    · rw [if_pos hr] at hst
      exact parse_cidr_ipv6_of_stoi_none pton6 ip ps hslash hst
    · rw [if_neg hr] at hst
      exact parse_cidr_ipv6_of_stoi_range pton6 ip ps n hslash hst (by omega)

theorem denotes_129 : denotes_int ['1', '2', '9'] 129 :=
  ⟨['1', '2', '9'], by simp, by decide, Or.inl ⟨rfl, by decide⟩⟩

theorem parse_cidr_rejects_bad_prefix_range_witness :
    ('/' ∉ ['1', '0', '.', '0', '.', '0', '.', '0'] ∧ '/' ∉ [':', ':'] ∧
      denotes_int ['1', '2', '9'] 129) ∧
    (parse_cidr_ipv4 (fun _ => some 0) ['1', '0', '.', '0', '.', '0', '.', '0'] = none ∧
      parse_cidr_ipv6 (fun _ => some []) ['1', '0', '.', '0', '.', '0', '.', '0'] = none) ∧
    parse_cidr_ipv4 (fun _ => some 0) ([':', ':'] ++ '/' :: ['1', '2', '9']) = none ∧
    parse_cidr_ipv6 (fun _ => some []) ([':', ':'] ++ '/' :: ['1', '2', '9']) = none :=
  ⟨⟨by decide, by decide, denotes_129⟩,
    (parse_cidr_rejects_bad_prefix_range (fun _ => some 0) (fun _ => some [])
      ['1', '0', '.', '0', '.', '0', '.', '0'] [':', ':'] ['1', '2', '9'] 129
      (by decide) (by decide) denotes_129).1,
    (parse_cidr_rejects_bad_prefix_range (fun _ => some 0) (fun _ => some [])
      ['1', '0', '.', '0', '.', '0', '.', '0'] [':', ':'] ['1', '2', '9'] 129
      (by decide) (by decide) denotes_129).2.1 (Or.inr (by decide)),
    (parse_cidr_rejects_bad_prefix_range (fun _ => some 0) (fun _ => some [])
      ['1', '0', '.', '0', '.', '0', '.', '0'] [':', ':'] ['1', '2', '9'] 129
      (by decide) (by decide) denotes_129).2.2 (Or.inr (by decide))⟩

/-! ## Prefix text with trailing characters -/

/-- When `stoi` finds a digit to read, the text begins with an integer. -/
theorem starts_with_int_of_stoi {ps : List Char} (h : stoi ps ≠ none) :
    starts_with_int ps := by
  unfold stoi at h
  simp only [ne_eq, ite_eq_left_iff, Bool.not_eq_true, not_forall] at h
  obtain ⟨hds, -⟩ := h
  have hne : ∀ l : List Char, l.isEmpty = false → l ≠ [] := by
    intro l hl; cases l with
    | nil => simp at hl
    | cons a t => simp
  have hws : ∀ c ∈ ps.takeWhile is_space, is_space c = true :=
    fun c hc => (List.mem_takeWhile_imp hc)
  have hsplit : ps = ps.takeWhile is_space ++ ps.dropWhile is_space :=
    (List.takeWhile_append_dropWhile _ _).symm
  by_cases hc : ((ps.dropWhile is_space).head? == some '-'
      || (ps.dropWhile is_space).head? == some '+') = true
  · rw [if_pos hc] at hds
    rcases hs1 : ps.dropWhile is_space with _ | ⟨c, tl⟩
    · rw [hs1] at hc; simp at hc
    · rw [hs1] at hc hds
      simp only [List.head?_cons, List.tail_cons] at hc hds
      have hsign : [c] = ['+'] ∨ [c] = ['-'] := by
        simp only [Bool.or_eq_true, beq_iff_eq, Option.some.injEq] at hc
        rcases hc with rfl | rfl
        · right; rfl
        · left; rfl
      refine ⟨ps.takeWhile is_space, [c], tl.takeWhile Char.isDigit,
        tl.dropWhile Char.isDigit, ?_, hws, Or.inr hsign, hne _ hds,
        fun d hd => List.mem_takeWhile_imp hd⟩
      rw [List.append_assoc, List.append_assoc, List.takeWhile_append_dropWhile,
        List.singleton_append, ← hs1]
      exact hsplit
  · rw [if_neg hc] at hds
    refine ⟨ps.takeWhile is_space, [], (ps.dropWhile is_space).takeWhile Char.isDigit,
      (ps.dropWhile is_space).dropWhile Char.isDigit, ?_, hws, Or.inl rfl, hne _ hds,
      fun d hd => List.mem_takeWhile_imp hd⟩
    rw [List.append_nil, List.append_assoc, List.takeWhile_append_dropWhile]
    exact hsplit

theorem not_denotes_24abc : ¬ ∃ n, denotes_int ['2', '4', 'a', 'b', 'c'] n := by
  rintro ⟨n, ds, -, hd, h⟩
  have ha : ¬ ('a' : Char).isDigit = true := by decide
  rcases h with ⟨rfl, -⟩ | ⟨h, -⟩ | ⟨h, -⟩
  · exact ha (hd 'a' (by simp))
  · simp at h
  · simp at h

/-- C12, counterexample. The line `10.0.0.0/24abc`, whose prefix text `24abc`
is not a base-10 integer, is accepted by `parse_cidr_ipv4` as a `/24`; likewise
`parse_cidr_ipv6` accepts `::/64abc` as a `/64`. -/
theorem parse_cidr_accepts_trailing_garbage :
    (¬ ∃ n, denotes_int ['2', '4', 'a', 'b', 'c'] n) ∧
    parse_cidr_ipv4 (fun _ => some 167772160)
      (['1', '0', '.', '0', '.', '0', '.', '0'] ++ '/' :: ['2', '4', 'a', 'b', 'c'])
        = some ⟨167772160, 167772415⟩ ∧
    parse_cidr_ipv6 (fun _ => some [0, 0, 0, 0, 0, 0, 0, 0, 0, 0, 0, 0, 0, 0, 0, 0])
      ([':', ':'] ++ '/' :: ['6', '4', 'a', 'b', 'c'])
        = some ⟨0, 2 ^ 64 - 1⟩ :=
  ⟨not_denotes_24abc, by decide, by decide⟩

/-- C12, amended. A line `ip/ps` whose `ps` does not begin (after optional
white space and an optional sign) with a decimal digit is rejected by both
parsers, whatever the address text parses to. -/
theorem parse_cidr_rejects_prefix_without_digits (pton4 : List Char → Option Nat)
    (pton6 : List Char → Option (List Nat)) (ip ps : List Char)
    (hslash : '/' ∉ ip) (hps : ¬ starts_with_int ps) :
    parse_cidr_ipv4 pton4 (ip ++ '/' :: ps) = none ∧
    parse_cidr_ipv6 pton6 (ip ++ '/' :: ps) = none := by
  have hst : stoi ps = none := by
    by_contra h
    exact hps (starts_with_int_of_stoi h)
  exact ⟨parse_cidr_ipv4_of_stoi_none pton4 ip ps hslash hst,
    parse_cidr_ipv6_of_stoi_none pton6 ip ps hslash hst⟩

theorem not_starts_with_int_abc : ¬ starts_with_int ['a', 'b', 'c'] := by
  rintro ⟨ws, sign, ds, rest, h, hws, hs, hne, hd⟩
  have ha : ¬ ('a' : Char).isDigit = true := by decide
  have hsp : ¬ is_space 'a' = true := by decide
  cases ws with
  | cons w ws' =>
    simp only [List.cons_append, List.cons.injEq] at h
    exact hsp (h.1 ▸ hws w (List.mem_cons_self _ _))
  | nil =>
    rcases hs with rfl | rfl | rfl
    · cases ds with
      | nil => exact hne rfl
      | cons d ds' =>
        simp only [List.nil_append, List.cons_append, List.cons.injEq] at h
        exact ha (h.1 ▸ hd d (List.mem_cons_self _ _))
    · simp at h
    · simp at h

theorem parse_cidr_rejects_prefix_without_digits_witness :
    ('/' ∉ ['1', '0', '.', '0', '.', '0', '.', '0'] ∧ ¬ starts_with_int ['a', 'b', 'c']) ∧
    parse_cidr_ipv4 (fun _ => some 167772160)
      (['1', '0', '.', '0', '.', '0', '.', '0'] ++ '/' :: ['a', 'b', 'c']) = none ∧
    parse_cidr_ipv6 (fun _ => some [])
      (['1', '0', '.', '0', '.', '0', '.', '0'] ++ '/' :: ['a', 'b', 'c']) = none :=
  ⟨⟨by decide, not_starts_with_int_abc⟩,
    parse_cidr_rejects_prefix_without_digits (fun _ => some 167772160) (fun _ => some [])
      ['1', '0', '.', '0', '.', '0', '.', '0'] ['a', 'b', 'c'] (by decide)
      not_starts_with_int_abc⟩

/-! ## Text output -/

theorem write_block_lines_eq_map (ntop : Nat → String) (cidrs : List Cidr) :
    write_block_lines ntop cidrs = cidrs.map (fun c => ntop c.1 ++ "/" ++ toString c.2) := by
  induction cidrs with
  | nil => rfl
  | cons c rest ih => simp only [write_block_lines, List.map_cons, ih]

theorem write_source_lines_length (ipver : Int) (sources : List Source) :
    (write_source_lines ipver sources).length =
      (sources.filter (fun s => decide (s.ipver = ipver))).length := by
  induction sources with
  | nil => rfl
  | cons s rest ih =>
    by_cases h : s.ipver = ipver
    · simp [write_source_lines, h, ih]
    · simp [write_source_lines, h, ih]

theorem write_txt_body (ntop4 ntop6 : Nat → String) (path : String) (ipver : Int)
    (v6 v4 : List Cidr) (sources : List Source) (ts : String) :
    (write_txt ntop4 ntop6 path ipver v6 v4 sources ts).2.drop
        (1 + (sources.filter (fun s => decide (s.ipver = ipver))).length) =
      if ipver = 4 then txt_body ntop4 v4 else txt_body ntop6 v6 := by
  unfold write_txt txt_body
  rw [Nat.add_comm, ← write_source_lines_length]
  simp only [List.drop_succ_cons, List.drop_left, write_block_lines_eq_map]

/-- C16. Each family's text output lists only its own cover. The lines
`write_txt` writes after the provenance header are, for `ipver = 4`, the count
of the 32-bit list and one `address/prefix` line per 32-bit block in order,
whatever the 128-bit list is; for `ipver = 6` the same with the 128-bit list,
whatever the 32-bit list is; and `main` writes `ip4.txt` from its 32-bit cover
and `ip6.txt` from its 128-bit cover. -/
theorem write_txt_lists_own_family (ntop4 ntop6 : Nat → String) (path out_dir : String)
    (v6 v6b v4 v4b : List Cidr) (sources : List Source) (ts : String) :
    ((write_txt ntop4 ntop6 path 4 v6 v4 sources ts).2.drop
        (1 + (sources.filter (fun s => decide (s.ipver = 4))).length) = txt_body ntop4 v4 ∧
      write_txt ntop4 ntop6 path 4 v6b v4 sources ts =
        write_txt ntop4 ntop6 path 4 v6 v4 sources ts) ∧
    ((write_txt ntop4 ntop6 path 6 v6 v4 sources ts).2.drop
        (1 + (sources.filter (fun s => decide (s.ipver = 6))).length) = txt_body ntop6 v6 ∧
      write_txt ntop4 ntop6 path 6 v6 v4b sources ts =
        write_txt ntop4 ntop6 path 6 v6 v4 sources ts) ∧
    (∃ f4 f6, main_write_txt ntop4 ntop6 out_dir v6 v4 sources ts = [f4, f6] ∧
      f4.1 = out_dir ++ "/ip4.txt" ∧ f6.1 = out_dir ++ "/ip6.txt" ∧
      f4.2.drop (1 + (sources.filter (fun s => decide (s.ipver = 4))).length)
        = txt_body ntop4 v4 ∧
      f6.2.drop (1 + (sources.filter (fun s => decide (s.ipver = 6))).length)
        = txt_body ntop6 v6) := by
  have b4 := fun p => write_txt_body ntop4 ntop6 p 4 v6 v4 sources ts
  have b6 := fun p => write_txt_body ntop4 ntop6 p 6 v6 v4 sources ts
  simp only [if_true] at b4
  have h6 : ¬ ((6 : Int) = 4) := by decide
  simp only [if_neg h6] at b6
  refine ⟨⟨b4 path, ?_⟩, ⟨b6 path, ?_⟩, ?_⟩
  · unfold write_txt; simp only [if_true]
  · unfold write_txt; simp only [if_neg h6]
  · exact ⟨_, _, rfl, rfl, rfl, b4 _, b6 _⟩

/-! ## Nested blocks, 32-bit family -/

theorem union_normalize_pair (a b : Interval128) :
    union_normalize [a, b] = if iv_le a b then sweep a [b] else sweep b [a] := by
  by_cases h : iv_le a b
  · rw [if_pos h]
    exact union_normalize_eq_sweep [a, b] a [b]
      (by simp only [List.insertionSort, List.orderedInsert, if_pos h])
  · rw [if_neg h]
    exact union_normalize_eq_sweep [a, b] b [a]
      (by simp only [List.insertionSort, List.orderedInsert, if_neg h])

theorem sweep_pair_absorb (a b : Interval128) (h1 : b.l ≤ a.r) (h2 : b.r ≤ a.r) :
    sweep a [b] = [a] := by
  rw [sweep_cons_merge [] (Or.inl h1), sweep_nil]
  unfold extend
  rw [if_neg (by omega)]

theorem sweep_pair_extend (a b : Interval128) (h1 : a.l = b.l) (h2 : a.l ≤ b.r)
    (h3 : b.r < a.r) : sweep b [a] = [a] := by
  rw [sweep_cons_merge [] (Or.inl (by omega)), sweep_nil]
  unfold extend
  rw [if_pos (by omega)]
  obtain ⟨al, ar⟩ := a
  obtain ⟨bl, br⟩ := b
  simp only at h1
  subst h1
  rfl

/-- An interval and one nested in it normalise to the outer interval, in
either order. -/
theorem union_normalize_nested (a b : Interval128) (h1 : a.l ≤ b.l) (h2 : b.l ≤ b.r)
    (h3 : b.r ≤ a.r) : union_normalize [a, b] = [a] ∧ union_normalize [b, a] = [a] := by
  rw [union_normalize_pair, union_normalize_pair]
  have hab := iv_le_iff a b
  have hba := iv_le_iff b a
  constructor
  · by_cases h : iv_le a b
    · rw [if_pos h]; exact sweep_pair_absorb a b (by omega) h3
    · rw [if_neg h]
      have : ¬ (a.l < b.l ∨ a.l = b.l ∧ a.r ≤ b.r) := fun x => h (hab.2 x)
      exact sweep_pair_extend a b (by omega) (by omega) (by omega)
  · by_cases h : iv_le b a
    · rw [if_pos h]
      have := hba.1 h
      by_cases he : b.r = a.r
      · have : b = a := by
          cases a; cases b
          simp only [Interval128.mk.injEq] at *
          omega
        subst this
        exact sweep_pair_absorb b b (by omega) (le_refl _)
      · exact sweep_pair_extend a b (by omega) (by omega) (by omega)
    · rw [if_neg h]; exact sweep_pair_absorb a b (by omega) h3

theorem tiles_same_nil {w : Nat} {s : Nat} : ∀ {bs : List Cidr}, tiles w s bs s → bs = []
  | [], _ => rfl
  | c :: rest, h => by
    simp only [tiles] at h
    have := tiles_le rest _ _ h.2
    have := block_size_pos w c.2
    omega

/-- A valid block decomposes back to itself. -/
theorem v4_of_valid_block (base k : Nat) (hk : k ≤ 32) (hd : 2 ^ k ∣ base)
    (hb : base + 2 ^ k ≤ 2 ^ 32) :
    interval_to_cidrs_v4 base (base + 2 ^ k - 1) = some [(base, (32 : Int) - (k : Int))] := by
  have hpos : 0 < 2 ^ k := by positivity
  obtain ⟨bs, e, t, g⟩ := v4_spec base (base + 2 ^ k - 1) (by omega) (by omega)
  rw [e]
  have hne := tiles_ne_nil t (by omega)
  obtain ⟨c, rest, rfl⟩ := List.exists_cons_of_ne_nil hne
  obtain ⟨k2, hk2, hp, -, -, h1, h2, -⟩ := g c (List.mem_cons_self _ _)
  simp only [tiles] at t
  obtain ⟨hc, t2⟩ := t
  have hkk : k2 = k := by
    rcases Nat.lt_trichotomy k2 k with h | h | h
    · exfalso
      have hd2 : 2 ^ (k2 + 1) ∣ c.1 := by rw [hc]; exact pow_dvd_of_le_of_dvd (by omega) hd
      have := h2 hd2
      have : 2 ^ (k2 + 1) ≤ 2 ^ k := Nat.pow_le_pow_right (by norm_num) (by omega)
      omega
    · exact h
    · exfalso
      have : 2 ^ (k + 1) ≤ 2 ^ k2 := Nat.pow_le_pow_right (by norm_num) (by omega)
      have := two_pow_succ k
      omega
  subst hkk
  rw [hp, block_size_sub k2 hk, hc] at t2
  have e2 : base + 2 ^ k2 - 1 + 1 = base + 2 ^ k2 := by omega
  rw [e2] at t2
  have := tiles_same_nil t2
  subst this
  have : c = (base, (32 : Int) - (k2 : Int)) := Prod.ext hc hp
  rw [this]

theorem block_size_32 (p : Int) : block_size 32 p = 2 ^ ((32 : Int) - p).toNat := by
  unfold block_size; rfl

/-- The interval `parse_cidr_ipv4` returns for a line that spells a valid
block. -/
theorem parse_cidr_ipv4_valid_block (pton4 : List Char → Option Nat) (ip ps : List Char)
    (base : Nat) (p : Int) (h1 : '/' ∉ ip) (h2 : stoi ps = some p)
    (h3 : pton4 ip = some base) (h4 : valid_cidr 32 (base, p)) (h5 : base < 2 ^ 32) :
    parse_cidr_ipv4 pton4 (ip ++ '/' :: ps) =
      some ⟨base, base + block_size 32 p - 1⟩ := by
  obtain ⟨hp0, hp1, hd⟩ := h4
  simp only [block_size_32] at hd ⊢
  rw [parse_cidr_ipv4_eq pton4 ip ps p base h1 h2 hp0 (by simpa using hp1) h3 h5,
    Nat.mod_eq_zero_of_dvd hd, Nat.sub_zero]

/-- C14. A nested block is absorbed and a block decomposes back to itself,
32-bit family. Let the lines `ipA/psA` and `ipB/psB` spell the valid blocks
`(base, p)` and `(baseB, pB)` of 32-bit addresses, the range of the second
inside the range of the first. Then both lines parse, `union_normalize` of the
two intervals, in either order, is the single interval
`[base, base + 2^(32-p) - 1]`, and `interval_to_cidrs_v4` of it returns
exactly `[(base, p)]`. -/
theorem nested_block_absorbed_v4 (pton4 : List Char → Option Nat)
    (ipA psA ipB psB : List Char) (base baseB : Nat) (p pB : Int)
    (hA1 : '/' ∉ ipA) (hA2 : stoi psA = some p) (hA3 : pton4 ipA = some base)
    (hA4 : valid_cidr 32 (base, p)) (hA5 : base < 2 ^ 32)
    (hB1 : '/' ∉ ipB) (hB2 : stoi psB = some pB) (hB3 : pton4 ipB = some baseB)
    (hB4 : valid_cidr 32 (baseB, pB)) (hB5 : baseB < 2 ^ 32)
    (hin : base ≤ baseB ∧ baseB + block_size 32 pB ≤ base + block_size 32 p) :
    ∃ ivA ivB, parse_cidr_ipv4 pton4 (ipA ++ '/' :: psA) = some ivA ∧
      parse_cidr_ipv4 pton4 (ipB ++ '/' :: psB) = some ivB ∧
      union_normalize [ivA, ivB] = [⟨base, base + block_size 32 p - 1⟩] ∧
      union_normalize [ivB, ivA] = [⟨base, base + block_size 32 p - 1⟩] ∧
      interval_to_cidrs_v4 base (base + block_size 32 p - 1) = some [(base, p)] := by
  have eA := parse_cidr_ipv4_valid_block pton4 ipA psA base p hA1 hA2 hA3 hA4 hA5
  have eB := parse_cidr_ipv4_valid_block pton4 ipB psB baseB pB hB1 hB2 hB3 hB4 hB5
  have hposA := block_size_pos 32 p
  have hposB := block_size_pos 32 pB
  obtain ⟨hn1, hn2⟩ := union_normalize_nested ⟨base, base + block_size 32 p - 1⟩
    ⟨baseB, baseB + block_size 32 pB - 1⟩ hin.1 (by simp only; omega) (by simp only; omega)
  refine ⟨_, _, eA, eB, hn1, hn2, ?_⟩
  obtain ⟨hp0, hp1, hd⟩ := hA4
  simp only [block_size_32] at hd ⊢
  have hp32 : p ≤ 32 := by simpa using hp1
  have hk : ((32 : Int) - p).toNat ≤ 32 := by omega
  have hb : base + 2 ^ ((32 : Int) - p).toNat ≤ 2 ^ 32 :=
    add_le_of_dvd_of_lt hd (Nat.pow_dvd_pow 2 hk) hA5
  have := v4_of_valid_block base ((32 : Int) - p).toNat hk hd hb
  have e : (32 : Int) - (((32 : Int) - p).toNat : Int) = p := by omega
  rw [e] at this
  exact this

theorem nested_block_absorbed_v4_witness :
    ('/' ∉ ['1', '0', '.', '0', '.', '0', '.', '0'] ∧ stoi ['8'] = some 8 ∧
      valid_cidr 32 (167772160, 8) ∧ 167772160 < 2 ^ 32 ∧
      '/' ∉ ['1', '0', '.', '1', '.', '0', '.', '0'] ∧ stoi ['1', '6'] = some 16 ∧
      valid_cidr 32 (167837696, 16) ∧ 167837696 < 2 ^ 32 ∧
      (167772160 ≤ 167837696 ∧
        167837696 + block_size 32 16 ≤ 167772160 + block_size 32 8)) ∧
    ∃ ivA ivB,
      parse_cidr_ipv4
          (fun s => if s = ['1', '0', '.', '0', '.', '0', '.', '0'] then some 167772160
            else some 167837696)
          (['1', '0', '.', '0', '.', '0', '.', '0'] ++ '/' :: ['8']) = some ivA ∧
      parse_cidr_ipv4
          (fun s => if s = ['1', '0', '.', '0', '.', '0', '.', '0'] then some 167772160
            else some 167837696)
          (['1', '0', '.', '1', '.', '0', '.', '0'] ++ '/' :: ['1', '6']) = some ivB ∧
      union_normalize [ivA, ivB] = [⟨167772160, 167772160 + block_size 32 8 - 1⟩] ∧
      union_normalize [ivB, ivA] = [⟨167772160, 167772160 + block_size 32 8 - 1⟩] ∧
      interval_to_cidrs_v4 167772160 (167772160 + block_size 32 8 - 1)
        = some [(167772160, 8)] := by
  have vA : valid_cidr 32 (167772160, 8) := by unfold valid_cidr block_size; decide
  have vB : valid_cidr 32 (167837696, 16) := by unfold valid_cidr block_size; decide
  have hin : (167772160 ≤ 167837696 ∧
      167837696 + block_size 32 16 ≤ 167772160 + block_size 32 8) := by
    unfold block_size; decide
  exact ⟨⟨by decide, by decide, vA, by decide, by decide, by decide, vB, by decide, hin⟩,
    nested_block_absorbed_v4 _ ['1', '0', '.', '0', '.', '0', '.', '0'] ['8']
      ['1', '0', '.', '1', '.', '0', '.', '0'] ['1', '6'] 167772160 167837696 8 16
      (by decide) (by decide) (by decide) vA (by decide) (by decide) (by decide)
      (by decide) vB (by decide) hin⟩

/-! ## The 128-bit decomposer away from the ends of the address space -/

/-- One iteration of the 128-bit loop in terms of `v6_block`. -/
theorem v6_loop_succ (fuel l r : Nat) :
    interval_to_cidrs_v6_loop (fuel + 1) l r =
      if l ≤ r then
        match v6_block l r with
        | .error e => .error e
        | .ok block =>
          match msb block with
          | .error e => .error e
          | .ok block_msb =>
            match interval_to_cidrs_v6_loop fuel ((l + block) % 2 ^ 128) r with
            | .error e => .error e
            | .ok rest => .ok ((l, (128 : Int) - (block_msb : Int)) :: rest)
      else .ok [] := by
  rw [interval_to_cidrs_v6_loop]
  unfold v6_block
  by_cases h : l ≤ r
  · rw [if_pos h, if_pos h]
    rcases (if l = 0 then Except.ok 128 else lsb l) with e | tz
    · rfl
    · simp only []
      rcases floor_pow2 ((r + 2 ^ 128 - l + 1) % 2 ^ 128) with e | ml
      · rfl
      · rfl
  · rw [if_neg h, if_neg h]

theorem lsb_scan_spec : ∀ (n x : Nat), 0 < x → x < 2 ^ n →
    lsb_scan n x < n ∧ 2 ^ lsb_scan n x ∣ x ∧ ¬ 2 ^ (lsb_scan n x + 1) ∣ x
  | 0, x, h0, h1 => by simp at h1; omega
  | n + 1, x, h0, h1 => by
    have hp : 2 ^ (n + 1) = 2 * 2 ^ n := by rw [pow_succ]; ring
    unfold lsb_scan
    by_cases hodd : x % 2 = 1
    · rw [if_pos hodd]
      refine ⟨by omega, by simp, ?_⟩
      simp only [zero_add, pow_one]
      omega
    · rw [if_neg hodd]
      obtain ⟨y, rfl⟩ : ∃ y, x = 2 * y := ⟨x / 2, by omega⟩
      have hy : 2 * y / 2 = y := by omega
      rw [hy]
      obtain ⟨i1, i2, i3⟩ := lsb_scan_spec n y (by omega) (by omega)
      refine ⟨by omega, ?_, ?_⟩
      · rw [Nat.add_comm 1, pow_succ, mul_comm]
        exact Nat.mul_dvd_mul_left 2 i2
      · intro hd
        apply i3
        rw [Nat.add_comm 1, pow_succ (2 : Nat) (lsb_scan n y + 1), mul_comm] at hd
        exact (Nat.mul_dvd_mul_iff_left (by norm_num)).1 hd

theorem msb_scan_spec : ∀ (n x : Nat), 0 < x → x < 2 ^ n →
    msb_scan n x < n ∧ 2 ^ msb_scan n x ≤ x ∧ x < 2 ^ (msb_scan n x + 1)
  | 0, x, h0, h1 => by simp at h1; omega
  | n + 1, x, h0, h1 => by
    have hp : 2 ^ (n + 1) = 2 * 2 ^ n := by rw [pow_succ]; ring
    unfold msb_scan
    by_cases hz : x / 2 = 0
    · rw [if_pos hz]
      refine ⟨by omega, by simp; omega, by simp; omega⟩
    · rw [if_neg hz]
      obtain ⟨i1, i2, i3⟩ := msb_scan_spec n (x / 2) (by omega) (by omega)
      have e1 : 2 ^ (1 + msb_scan n (x / 2)) = 2 * 2 ^ msb_scan n (x / 2) := by
        rw [Nat.add_comm, pow_succ]; ring
      have e2 : 2 ^ (1 + msb_scan n (x / 2) + 1) = 2 * 2 ^ (msb_scan n (x / 2) + 1) := by
        rw [pow_succ, Nat.add_comm 1]; ring
      refine ⟨by omega, ?_, ?_⟩
      · rw [e1]; omega
      · rw [e2]; omega

theorem msb_scan_pow (k : Nat) (hk : k < 128) : msb_scan 128 (2 ^ k) = k := by
  obtain ⟨-, h2, h3⟩ := msb_scan_spec 128 (2 ^ k) (by positivity)
    (Nat.pow_lt_pow_right (by norm_num) hk)
  have a := (Nat.pow_le_pow_iff_right (by norm_num : 1 < 2)).1 h2
  have b := (Nat.pow_lt_pow_iff_right (by norm_num : 1 < 2)).1 h3
  omega

theorem one_shl_mod (t : Nat) (ht : t < 128) : (1 <<< t) % 2 ^ 128 = 2 ^ t := by
  rw [Nat.shiftLeft_eq, one_mul]
  exact Nat.mod_eq_of_lt (Nat.pow_lt_pow_right (by norm_num) ht)

theorem msb_pow (k : Nat) (hk : k < 128) : msb (2 ^ k) = .ok k := by
  unfold msb
  rw [if_neg (by positivity), msb_scan_pow k hk]

theorem ite_pow_min (t m : Nat) :
    (if 2 ^ t < 2 ^ m then 2 ^ t else 2 ^ m) = 2 ^ (min t m) := by
  by_cases h : t < m
  · rw [if_pos (Nat.pow_lt_pow_right (by norm_num) h), Nat.min_eq_left (by omega)]
  · have : ¬ 2 ^ t < 2 ^ m := by
      intro hlt
      exact h ((Nat.pow_lt_pow_iff_right (by norm_num : 1 < 2)).1 hlt)
    rw [if_neg this, Nat.min_eq_right (by omega)]

/-- The block the 128-bit loop chooses at `l`, away from both ends of the
address space: a power of two that divides `l`, fits into what remains and
cannot be doubled. -/
theorem v6_block_safe (l r : Nat) (hl : 0 < l) (hlr : l ≤ r) (hr : r < 2 ^ 128 - 1) :
    ∃ k, k ≤ 127 ∧ v6_block l r = .ok (2 ^ k) ∧ 2 ^ k ∣ l ∧ l + 2 ^ k ≤ r + 1 ∧
      (2 ^ (k + 1) ∣ l → r + 1 < l + 2 ^ (k + 1)) := by
  have hrem : (r + 2 ^ 128 - l + 1) % 2 ^ 128 = r - l + 1 := by
    have : r + 2 ^ 128 - l + 1 = (r - l + 1) + 2 ^ 128 := by omega
    rw [this, Nat.add_mod_right, Nat.mod_eq_of_lt (by omega)]
  obtain ⟨t1, t2, t3⟩ := lsb_scan_spec 128 l hl (by omega)
  obtain ⟨m1, m2, m3⟩ := msb_scan_spec 128 (r - l + 1) (by omega) (by omega)
  have hlsb : lsb l = .ok (lsb_scan 128 l) := by
    unfold lsb; rw [if_neg (by omega)]
  have hfp : floor_pow2 (r - l + 1) = .ok (2 ^ msb_scan 128 (r - l + 1)) := by
    unfold floor_pow2 msb
    rw [if_neg (by omega)]
    simp only []
    rw [one_shl_mod _ m1]
  have hb : v6_block l r = .ok (2 ^ (min (lsb_scan 128 l) (msb_scan 128 (r - l + 1)))) := by
    unfold v6_block
    rw [hrem, if_neg (by omega), hlsb]
    simp only []
    rw [if_neg (by omega), hfp]
    simp only []
    rw [one_shl_mod _ t1, ite_pow_min]
  refine ⟨min (lsb_scan 128 l) (msb_scan 128 (r - l + 1)), by omega, hb, ?_, ?_, ?_⟩
  · exact pow_dvd_of_le_of_dvd (Nat.min_le_left _ _) t2
  · have : 2 ^ (min (lsb_scan 128 l) (msb_scan 128 (r - l + 1)))
        ≤ 2 ^ msb_scan 128 (r - l + 1) :=
      Nat.pow_le_pow_right (by norm_num) (Nat.min_le_right _ _)
    omega
  · intro hd
    have htm : ¬ lsb_scan 128 l ≤ msb_scan 128 (r - l + 1) := by
      intro hle
      rw [Nat.min_eq_left hle] at hd
      exact t3 hd
    rw [Nat.min_eq_right (by omega)]
    omega

theorem block_size_128_sub (k : Nat) (hk : k ≤ 128) :
    block_size 128 ((128 : Int) - (k : Int)) = 2 ^ k := by
  unfold block_size
  congr 1
  omega

/-- Away from both ends of the address space the 128-bit loop ends within its
fuel without a fault, and its blocks follow one another from `L` to `r`. -/
theorem v6_loop_safe (r : Nat) (hr : r < 2 ^ 128 - 1) :
    ∀ fuel L, 0 < L → L ≤ r + 1 → r + 1 - L ≤ fuel →
      ∃ bs, interval_to_cidrs_v6_loop fuel L r = .ok bs ∧ tiles 128 L bs (r + 1) ∧
        ∀ c ∈ bs, ∃ k : Nat, k ≤ 127 ∧ c.2 = (128 : Int) - (k : Int) ∧ 2 ^ k ∣ c.1 := by
  intro fuel
  induction fuel with
  | zero =>
    intro L _ h2 h3
    have hn : ¬ L ≤ r := by omega
    refine ⟨[], by rw [interval_to_cidrs_v6_loop, if_neg hn], ?_, by simp⟩
    simp only [tiles]; omega
  | succ fuel ih =>
    intro L h1 h2 h3
    rw [v6_loop_succ]
    by_cases hLr : L ≤ r
    · obtain ⟨k, hk, hb, d1, d2, -⟩ := v6_block_safe L r h1 hLr hr
      have hpos : 0 < 2 ^ k := by positivity
      have hadv : (L + 2 ^ k) % 2 ^ 128 = L + 2 ^ k := Nat.mod_eq_of_lt (by omega)
      obtain ⟨rest, e2, t2, g2⟩ := ih (L + 2 ^ k) (by omega) d2 (by omega)
      rw [if_pos hLr, hb]
      simp only []
      rw [msb_pow k (by omega)]
      simp only []
      rw [hadv, e2]
      refine ⟨(L, (128 : Int) - (k : Int)) :: rest, rfl, ?_, ?_⟩
      · simp only [tiles, block_size_128_sub k (by omega), true_and]
        exact t2
      · intro c hc
        rcases List.mem_cons.1 hc with rfl | hc
        · exact ⟨k, hk, rfl, d1⟩
        · exact g2 c hc
    · rw [if_neg hLr]
      refine ⟨[], rfl, ?_, by simp⟩
      simp only [tiles]; omega

theorem block_size_128 (p : Int) : block_size 128 p = 2 ^ ((128 : Int) - p).toNat := by
  unfold block_size; rfl

/-- C20. Safe region of the 128-bit decomposer: for `0 < l ≤ r < 2^128 - 1`
the call returns a block list (no bit scan of zero, no loop left running); the
first base is `l`, every next base is the previous base plus the previous block
size in exact arithmetic (so `l` is never wrapped), the last block ends at `r`,
and every block has its prefix length in `[1, 128]`, its base divisible by
`2^(128 - prefix)` and its end below `2^128 - 1`. -/
theorem interval_to_cidrs_v6_safe_region (l r : Nat) (hl : 0 < l) (hlr : l ≤ r)
    (hr : r < 2 ^ 128 - 1) :
    ∃ bs, interval_to_cidrs_v6 l r = .ok bs ∧
      bs.head?.map Prod.fst = some l ∧
      List.Chain' (fun a b => b.1 = a.1 + 2 ^ ((128 : Int) - a.2).toNat) bs ∧
      bs.getLast?.map (fun c => c.1 + 2 ^ ((128 : Int) - c.2).toNat - 1) = some r ∧
      ∀ c ∈ bs, 1 ≤ c.2 ∧ c.2 ≤ 128 ∧ 2 ^ ((128 : Int) - c.2).toNat ∣ c.1 ∧
        c.1 + 2 ^ ((128 : Int) - c.2).toNat ≤ 2 ^ 128 - 1 := by
  have hnf : ¬ (l = 0 ∧ r = U128_MAX) := by omega
  obtain ⟨bs, e, t, g⟩ := v6_loop_safe r hr (r - l + 1) l hl (by omega) (by omega)
  refine ⟨bs, by unfold interval_to_cidrs_v6; rw [if_neg hnf]; exact e, ?_, ?_, ?_, ?_⟩
  · have hne : bs ≠ [] := tiles_ne_nil t (by omega)
    cases bs with
    | nil => exact absurd rfl hne
    | cons c rest =>
      simp only [tiles] at t
      simp [t.1]
  · have := tiles_chain' bs _ _ t
    simp only [block_size_128] at this
    exact this
  · have hne : bs ≠ [] := tiles_ne_nil t (by omega)
    rcases hlast : bs.getLast? with _ | c
    · exact absurd (List.getLast?_eq_none_iff.1 hlast) hne
    · have := tiles_last bs _ _ t c hlast
      rw [block_size_128] at this
      simp only [Option.map_some']
      congr 1
      omega
  · intro c hc
    obtain ⟨k, hk, hp, hd⟩ := g c hc
    have hb := (tiles_bounds bs _ _ t c hc).2
    rw [block_size_128] at hb
    have e1 : ((128 : Int) - c.2).toNat = k := by omega
    rw [e1] at hb ⊢
    exact ⟨by omega, by omega, hd, by omega⟩

theorem interval_to_cidrs_v6_safe_region_witness :
    (0 < 1 ∧ 1 ≤ 5 ∧ 5 < 2 ^ 128 - 1) ∧
    ∃ bs, interval_to_cidrs_v6 1 5 = .ok bs ∧
      bs.head?.map Prod.fst = some 1 ∧
      List.Chain' (fun a b => b.1 = a.1 + 2 ^ ((128 : Int) - a.2).toNat) bs ∧
      bs.getLast?.map (fun c => c.1 + 2 ^ ((128 : Int) - c.2).toNat - 1) = some 5 ∧
      ∀ c ∈ bs, 1 ≤ c.2 ∧ c.2 ≤ 128 ∧ 2 ^ ((128 : Int) - c.2).toNat ∣ c.1 ∧
        c.1 + 2 ^ ((128 : Int) - c.2).toNat ≤ 2 ^ 128 - 1 :=
  ⟨by decide, interval_to_cidrs_v6_safe_region 1 5 (by decide) (by decide) (by decide)⟩

/-! ## The 128-bit decomposer at the ends of the address space -/

set_option maxRecDepth 8192

/-- C17. Failing inputs for the claim on alignment at `low = 0`: in the first
iteration of `interval_to_cidrs_v6(0, 0)` and of `interval_to_cidrs_v6(0, 5)`
the block chosen is `0`, not the largest power of two `≤ high + 1`, and the
call ends with `msb` applied to zero instead of emitting a block. -/
theorem v6_first_block_at_zero :
    (v6_block 0 0 = .ok 0 ∧ interval_to_cidrs_v6 0 0 = .error .bit_scan_of_zero) ∧
    (v6_block 0 5 = .ok 0 ∧ interval_to_cidrs_v6 0 5 = .error .bit_scan_of_zero) :=
  ⟨⟨by rfl, by rfl⟩, ⟨by rfl, by rfl⟩⟩

/-- C18. Failing input for the claim that `remaining` never wraps: on
`[2^127, 2^128 - 1]` the loop is entered twice; `remaining` is `2^127` in the
first iteration and `0` in the second, after `l += block` has wrapped to `0`,
and the call ends with `msb` applied to zero. -/
theorem v6_remaining_wraps_at_top :
    v6_remaining_trace (2 ^ 128 - 1 - 2 ^ 127 + 1) (2 ^ 127) (2 ^ 128 - 1) = [2 ^ 127, 0] ∧
    v6_block (2 ^ 127) (2 ^ 128 - 1) = .ok (2 ^ 127) ∧
    (2 ^ 127 + 2 ^ 127) % 2 ^ 128 = 0 ∧
    interval_to_cidrs_v6 (2 ^ 127) (2 ^ 128 - 1) = .error .bit_scan_of_zero :=
  ⟨by rfl, by rfl, by decide, by rfl⟩

/-- C13. Failing input for the claim on adjacent halves: the halves `::/2` and
`4000::/2` of `::/1` parse and normalise, in either order, to the single
interval `[0, 2^127 - 1]`, but `interval_to_cidrs_v6` of it does not return
`[(0, 1)]`: it ends with `msb` applied to zero. -/
theorem adjacent_halves_at_zero_fail :
    parse_cidr_ipv6 (fun _ => some [0, 0, 0, 0, 0, 0, 0, 0, 0, 0, 0, 0, 0, 0, 0, 0])
      ([':', ':'] ++ '/' :: ['2']) = some ⟨0, 2 ^ 126 - 1⟩ ∧
    parse_cidr_ipv6 (fun _ => some [64, 0, 0, 0, 0, 0, 0, 0, 0, 0, 0, 0, 0, 0, 0, 0])
      (['4', '0', '0', '0', ':', ':'] ++ '/' :: ['2']) = some ⟨2 ^ 126, 2 ^ 127 - 1⟩ ∧
    union_normalize [⟨0, 2 ^ 126 - 1⟩, ⟨2 ^ 126, 2 ^ 127 - 1⟩] = [⟨0, 2 ^ 127 - 1⟩] ∧
    union_normalize [⟨2 ^ 126, 2 ^ 127 - 1⟩, ⟨0, 2 ^ 126 - 1⟩] = [⟨0, 2 ^ 127 - 1⟩] ∧
    interval_to_cidrs_v6 0 (2 ^ 127 - 1) = .error .bit_scan_of_zero :=
  ⟨by decide, by decide, by decide, by decide, by rfl⟩

end Chnroutes
